import Mathlib

/-!
Verification of the orchestrator-ai workflow engine against its
natural-language specification.  The definitions below are a shallow
embedding of the Python sources under `src/`:

* `src/orchestrator/planner.py`   (`WorkflowStep`, `WorkflowGraph`)
* `src/orchestrator/executor.py`  (`WorkflowExecutor`, condition evaluation)
* `src/orchestrator/selector.py`  (`AgentSelector`)
* `src/orchestrator/circuit_breaker.py` (`CircuitBreaker`)
* `src/orchestrator/retry.py`     (`RetryPolicy`, `RetryHandler`)
* `src/state/store.py`            (`StateStore`)

Python dictionaries are modelled as association lists (Python dicts
preserve insertion order), Python `None` as an explicit `PyValue.vnone`
constructor, raised exceptions as `Except String`, and machine `int`s as
`Int`.  Python floats that only ever flow through order comparisons and
additions are modelled as `Rat`.
-/

namespace Orchestrator

/-- A Python value as it occurs in workflow state, step results and
condition literals: `None`, ints, strings, lists and (string-keyed)
dicts.  Floats and bools are outside the modelled fragment. -/
inductive PyValue where
  | vnone : PyValue
  | vint : Int → PyValue
  | vstr : String → PyValue
  | vlist : List PyValue → PyValue
  | vdict : List (String × PyValue) → PyValue
deriving Repr

/-- Association-list lookup, the embedding of `d.get(k)` on a Python
dict (first binding wins; Python dicts have no duplicate keys). -/
def lookupVal (d : List (String × PyValue)) (k : String) : Option PyValue :=
  match d with
  | [] => none
  | (k', v) :: rest => if k' = k then some v else lookupVal rest k

mutual
/-- Python `==` on the modelled fragment: `None == None`, ints, strings,
lists elementwise, dicts by key lookup (equal size and every key of the
left dict bound to an equal value on the right; for duplicate-free
dicts this is Python's dict equality).  Values of different
constructors compare unequal. -/
def pyEq : PyValue → PyValue → Bool
  | .vnone, .vnone => true
  | .vint a, .vint b => a == b
  | .vstr a, .vstr b => a == b
  | .vlist a, .vlist b => pyEqList a b
  | .vdict a, .vdict b => a.length == b.length && pyEqDict a b
  | _, _ => false

/-- Elementwise Python `==` on lists. -/
def pyEqList : List PyValue → List PyValue → Bool
  | [], [] => true
  | x :: xs, y :: ys => pyEq x y && pyEqList xs ys
  | _, _ => false

/-- Every binding of the first dict is present and equal in the second. -/
def pyEqDict : List (String × PyValue) → List (String × PyValue) → Bool
  | [], _ => true
  | (k, v) :: rest, b =>
      (match lookupVal b k with
       | some w => pyEq v w
       | none => false) && pyEqDict rest b
end

/-- Python truthiness (`bool(v)`): `None`, `0`, `""`, `[]` and the empty
dict are falsy. -/
def pyTruthy : PyValue → Bool
  | .vnone => false
  | .vint n => n != 0
  | .vstr s => s ≠ ""
  | .vlist l => !l.isEmpty
  | .vdict d => !d.isEmpty

mutual
/-- Python order comparison (`<`, `>`, `<=`, `>=`) on the modelled
fragment: int/int and str/str compare, lists compare lexicographically
(first non-`==` pair decides), every other combination — in particular
any comparison involving `None` — raises `TypeError`. -/
def pyCmp : PyValue → PyValue → Except String Ordering
  | .vint a, .vint b => .ok (compare a b)
  | .vstr a, .vstr b => .ok (compare a b)
  | .vlist a, .vlist b => pyCmpList a b
  | _, _ => .error "TypeError"

/-- Lexicographic list comparison, Python style. -/
def pyCmpList : List PyValue → List PyValue → Except String Ordering
  | [], [] => .ok .eq
  | [], _ :: _ => .ok .lt
  | _ :: _, [] => .ok .gt
  | x :: xs, y :: ys => if pyEq x y then pyCmpList xs ys else pyCmp x y
end

/-- Whether the first character list starts the second. -/
def leadsWith : List Char → List Char → Bool
  | [], _ => true
  | _ :: _, [] => false
  | x :: xs, y :: ys => x == y && leadsWith xs ys

/-- Whether the first character list occurs contiguously in the second. -/
def occursIn (p : List Char) : List Char → Bool
  | [] => p.isEmpty
  | y :: ys => leadsWith p (y :: ys) || occursIn p ys

/-- `needle in haystack` for Python strings: substring test (the empty
needle occurs in every string). -/
def pySubstr (needle haystack : String) : Bool :=
  occursIn needle.toList haystack.toList

/-- `s.lower()` on the modelled fragment. -/
def strLower (s : String) : String :=
  String.mk (s.toList.map Char.toLower)

/-- `field.split('.')` — Python `str.split` with a one-character
separator: consecutive separators yield empty fields, the empty string
splits to `[""]`. -/
def splitOnCharAux (c : Char) : List Char → List Char → List (List Char)
  | [], acc => [acc.reverse]
  | x :: xs, acc =>
      if x = c then acc.reverse :: splitOnCharAux c xs []
      else splitOnCharAux c xs (x :: acc)

/-- `s.split(c)` for a single-character separator. -/
def splitOnChar (c : Char) (s : String) : List String :=
  (splitOnCharAux c s.toList []).map String.mk

/-- `item in container` as used by the `contains` / `not_contains`
operators, where the code has already checked
`isinstance(field_value, (list, str))`; the non-list / non-str case is
handled at the call site.  `x in someString` with a non-string `x`
raises `TypeError` in Python. -/
def pyContains (container item : PyValue) : Except String Bool :=
  match container with
  | .vstr s =>
      match item with
      | .vstr p => .ok (pySubstr p s)
      | _ => .error "TypeError"
  | .vlist l => .ok (l.any (fun e => pyEq e item))
  | _ => .ok false

/-- `WorkflowExecutor._get_field_value`: walk a dotted path through the
context state; a missing key or a non-dict intermediate value resolves
to `None` (`dict.get` default). -/
def getFieldValuePath (parts : List String) (v : PyValue) : PyValue :=
  match parts with
  | [] => v
  | p :: rest =>
      match v with
      | .vdict d => getFieldValuePath rest ((lookupVal d p).getD .vnone)
      | _ => .vnone

/-- `WorkflowExecutor._get_field_value` on a field string: split on `.`
and walk the context state. -/
def getFieldValue (field : String) (state : List (String × PyValue)) : PyValue :=
  getFieldValuePath (splitOnChar '.' field) (.vdict state)

/-- A simple condition dict: `field`, `operator`, `value` entries
(`condition.get(...)`; a missing entry is `none` / `vnone`). -/
structure SimpleCondition where
  field : Option String
  operator : Option String
  value : PyValue
deriving Repr

/-- Whether a value `isinstance(·, (list, str))`. -/
def isListOrStr : PyValue → Bool
  | .vstr _ => true
  | .vlist _ => true
  | _ => false

/-- The `elif operator == ...` dispatch of
`_evaluate_simple_condition`, applied to the already-resolved field
value; an unknown (or missing) operator evaluates to true, as the
final `return True` does.  `regexCompile` abstracts `re.compile(value)`
followed by `.match(str(field_value))`: it returns the compiled matcher
or raises (invalid pattern / non-pattern value). -/
def applyConditionOp (regexCompile : PyValue → Except String (PyValue → Bool))
    (op : Option String) (fv value : PyValue) : Except String Bool :=
  if op = some "equals" then .ok (pyEq fv value)
  else if op = some "not_equals" then .ok (!pyEq fv value)
  else if op = some "greater_than" then (pyCmp fv value).map (fun o => o == .gt)
  else if op = some "less_than" then (pyCmp fv value).map (fun o => o == .lt)
  else if op = some "greater_than_or_equal" then
    (pyCmp fv value).map (fun o => o != .lt)
  else if op = some "less_than_or_equal" then
    (pyCmp fv value).map (fun o => o != .gt)
  else if op = some "contains" then
    if isListOrStr fv then pyContains fv value else .ok false
  else if op = some "not_contains" then
    if isListOrStr fv then (pyContains fv value).map (fun b => !b) else .ok true
  else if op = some "exists" then .ok (!pyEq fv .vnone)
  else if op = some "not_exists" then .ok (pyEq fv .vnone)
  else if op = some "in" then
    match value with
    | .vlist l => .ok (l.any (fun e => pyEq e fv))
    | _ => .ok false
  else if op = some "not_in" then
    match value with
    | .vlist l => .ok (!(l.any (fun e => pyEq e fv)))
    | _ => .ok true
  else if op = some "regex" then do
    let matcher ← regexCompile value
    pure (if pyTruthy fv then matcher fv else false)
  else .ok true

/-- `WorkflowExecutor._evaluate_simple_condition`: a missing or empty
field makes the condition true; otherwise the field is resolved from
the context state and the operator dispatch runs.  Comparison operators
may raise `TypeError`, which the caller observes as an exception. -/
def evalSimpleCondition (regexCompile : PyValue → Except String (PyValue → Bool))
    (cond : SimpleCondition) (state : List (String × PyValue)) :
    Except String Bool :=
  match cond.field with
  | none => .ok true
  | some f =>
    if f = "" then .ok true
    else applyConditionOp regexCompile cond.operator (getFieldValue f state) cond.value

/-- A complex condition attached to a step (`step.condition`), per
`WorkflowExecutor._should_execute_step`: `type` is `simple`, `and`,
`or`, `branch`, or anything else (which evaluates to true).  A branch
whose `condition` entry is missing (falsy) is skipped. -/
inductive StepCondition where
  | simple (c : SimpleCondition)
  | andCond (conditions : List SimpleCondition)
  | orCond (conditions : List SimpleCondition)
  | branch (branches : List (Option SimpleCondition × List String))
      (elseSteps : Option (List String))
  | unknown
deriving Repr

/-- `all(evaluate(c) for c in conditions)`: short-circuits on the first
false, propagates a raised evaluation error. -/
def evalAllConditions (rc : PyValue → Except String (PyValue → Bool))
    (state : List (String × PyValue)) : List SimpleCondition → Except String Bool
  | [] => .ok true
  | c :: rest => do
      if (← evalSimpleCondition rc c state) then evalAllConditions rc state rest
      else pure false

/-- `any(evaluate(c) for c in conditions)`: short-circuits on the first
true, propagates a raised evaluation error. -/
def evalAnyConditions (rc : PyValue → Except String (PyValue → Bool))
    (state : List (String × PyValue)) : List SimpleCondition → Except String Bool
  | [] => .ok false
  | c :: rest => do
      if (← evalSimpleCondition rc c state) then pure true
      else evalAnyConditions rc state rest

/-- Walk the branch list: the first branch with a present condition that
evaluates true decides (is this step in that branch?); otherwise the
`else` branch decides; otherwise false. -/
def evalBranchList (rc : PyValue → Except String (PyValue → Bool))
    (state : List (String × PyValue)) (sid : String) :
    List (Option SimpleCondition × List String) → Option (List String) →
    Except String Bool
  | [], elseSteps =>
      match elseSteps with
      | some steps => .ok (steps.contains sid)
      | none => .ok false
  | (bc, bsteps) :: rest, elseSteps =>
      match bc with
      | none => evalBranchList rc state sid rest elseSteps
      | some c => do
          if (← evalSimpleCondition rc c state) then pure (bsteps.contains sid)
          else evalBranchList rc state sid rest elseSteps

/-- `WorkflowStep` (planner.py).  Fields not read by any modelled
function (`input_data`, `status`, `result`, the template metadata) are
omitted from the embedding. -/
structure WorkflowStep where
  step_id : String
  agent_type : String
  depends_on : List String
  output_key : Option String
  condition : Option StepCondition
deriving Repr

/-- `WorkflowExecutor._should_execute_step`. -/
def shouldExecuteStep (rc : PyValue → Except String (PyValue → Bool))
    (step : WorkflowStep) (state : List (String × PyValue)) :
    Except String Bool :=
  match step.condition with
  | none => .ok true
  | some (.simple c) => evalSimpleCondition rc c state
  | some (.andCond cs) => evalAllConditions rc state cs
  | some (.orCond cs) => evalAnyConditions rc state cs
  | some (.branch bs elseSteps) => evalBranchList rc state step.step_id bs elseSteps
  | some .unknown => .ok true

/-! ## Planner (`WorkflowGraph`)

`WorkflowGraph.steps` is a Python dict of step id to step, in insertion
order; it is modelled as a `List WorkflowStep` (duplicate-free step ids
wherever a theorem needs that; a Python dict cannot hold duplicate
keys).  The in-degree dict is modelled as a function `String → Int`
that is only ever read and written at step ids. -/

/-- The step ids, in insertion order (`self.steps` keys). -/
def stepIds (steps : List WorkflowStep) : List String := steps.map (·.step_id)

/-- `self.steps.get(step_id)` / `self.steps[step_id]`. -/
def findStep (steps : List WorkflowStep) (sid : String) : Option WorkflowStep :=
  steps.find? (fun s => s.step_id = sid)

/-- The dependencies of a step that name existing steps
(`if dep in in_degree` keeps exactly these). -/
def existingDeps (steps : List WorkflowStep) (s : WorkflowStep) : List String :=
  s.depends_on.filter (fun d => (stepIds steps).contains d)

/-- The in-degree that `calculate_execution_order` assigns to a step:
one per occurrence of a dependency that is an existing step id. -/
def initialDegree (steps : List WorkflowStep) (s : WorkflowStep) : Int :=
  ((existingDeps steps s).length : Int)

/-- The body of the while loop after popping `sid`: for every step (in
insertion order) whose `depends_on` contains `sid`, decrement its
in-degree, enqueueing it when the degree reaches zero. -/
def processPop (sid : String) :
    List WorkflowStep → (String → Int) → List String → ((String → Int) × List String)
  | [], deg, queue => (deg, queue)
  | t :: rest, deg, queue =>
      if t.depends_on.contains sid then
        let d := deg t.step_id - 1
        processPop sid rest (Function.update deg t.step_id d)
          (if d = 0 then queue ++ [t.step_id] else queue)
      else processPop sid rest deg queue

/-- The while loop of `calculate_execution_order`: pop the queue head,
emit it, propagate decrements.  The fuel argument bounds the number of
iterations; `steps.length` iterations always suffice (each step enters
the queue at most once), which the lemmas below prove. -/
def kahnLoop (steps : List WorkflowStep) :
    Nat → List String → (String → Int) → List String → List String
  | 0, _, _, order => order
  | _ + 1, [], _, order => order
  | fuel + 1, sid :: rest, deg, order =>
      let (deg', queue') := processPop sid steps deg rest
      kahnLoop steps fuel queue' deg' (order ++ [sid])

/-- `WorkflowGraph.calculate_execution_order`: Kahn topological sort;
raises `ValueError("Circular dependency detected in workflow")` when
the queue empties before every step is emitted. -/
def calculate_execution_order (steps : List WorkflowStep) :
    Except String (List String) :=
  let deg0 : String → Int := fun x =>
    match findStep steps x with
    | some s => initialDegree steps s
    | none => 0
  let queue0 := (steps.filter (fun s => initialDegree steps s == 0)).map (·.step_id)
  let order := kahnLoop steps steps.length queue0 deg0 []
  if order.length = steps.length then .ok order
  else .error "Circular dependency detected in workflow"

/-- The conflict test of `get_parallel_groups`: `sid` can join a group
iff no group member directly depends on it and it directly depends on
no group member.  (Groups are carried as lists of steps; the source
carries ids and re-reads `self.steps[gid]`, which yields exactly the
carried step.) -/
def canJoinGroup (sid : String) (deps : List String) (group : List WorkflowStep) : Bool :=
  group.all (fun g => !(g.depends_on.contains sid) && !(deps.contains g.step_id))

/-- Append the step to the first group it can join, else open a new
group at the end. -/
def insertIntoGroups (st : WorkflowStep) :
    List (List WorkflowStep) → List (List WorkflowStep)
  | [] => [[st]]
  | g :: gs =>
      if canJoinGroup st.step_id st.depends_on g then (g ++ [st]) :: gs
      else g :: insertIntoGroups st gs

/-- The grouping fold of `get_parallel_groups` over the execution
order: a step whose dependencies are all in `completed` is inserted and
marked completed; otherwise it is silently dropped.  (An id from the
execution order always names an existing step, so the `findStep`
fallback is unreachable.) -/
def parallelGroupsFold (steps : List WorkflowStep) (order : List String) :
    List (List WorkflowStep) :=
  (order.foldl
    (fun (acc : List String × List (List WorkflowStep)) sid =>
      match findStep steps sid with
      | none => acc
      | some st =>
          if st.depends_on.all (fun d => acc.1.contains d) then
            (acc.1 ++ [sid], insertIntoGroups st acc.2)
          else acc)
    ([], [])).2

/-- `WorkflowGraph.get_parallel_groups` (computing the execution order
first, as the source does for a fresh graph; the dead `depends_on_map`
of the source is not modelled). -/
def get_parallel_groups (steps : List WorkflowStep) :
    Except String (List (List String)) :=
  (calculate_execution_order steps).map
    (fun order => (parallelGroupsFold steps order).map (fun g => g.map (·.step_id)))

/-! ## The `research_and_analyze` template (templates.py) -/

/-- The three steps of `WORKFLOW_TEMPLATES['research_and_analyze']`:
`research`, then `analyze` depending on `research`, then `synthesize`
depending on `analyze`. -/
def researchSteps : List WorkflowStep :=
  [ { step_id := "research", agent_type := "research_agent",
      depends_on := [], output_key := some "research_data", condition := none },
    { step_id := "analyze", agent_type := "analysis_agent",
      depends_on := ["research"], output_key := some "analysis_results", condition := none },
    { step_id := "synthesize", agent_type := "synthesis_agent",
      depends_on := ["analyze"], output_key := some "final_result", condition := none } ]

/-! ## Generic association-list helpers (Python dict reads and writes) -/

/-- `d.get(k)`. -/
def alookup {κ α : Type} [DecidableEq κ] (d : List (κ × α)) (k : κ) : Option α :=
  match d with
  | [] => none
  | (k', v) :: rest => if k' = k then some v else alookup rest k

/-- `d[k] = v`: overwrite the existing binding, else append. -/
def aset {κ α : Type} [DecidableEq κ] : List (κ × α) → κ → α → List (κ × α)
  | [], k, v => [(k, v)]
  | (k', w) :: rest, k, v =>
      if k' = k then (k, v) :: rest else (k', w) :: aset rest k v

/-! ## Executor (`WorkflowExecutor`)

The agent layer is abstracted by `outcomes : String → Except String
PyValue`, the result of `selector.select_for_step` followed by
`agent.execute` for a given step id: a missing agent's `ValueError` and
an agent exception both surface as `.error`, a normal return as `.ok`.
The input preparation (`_prepare_step_input`) only feeds the agent and
cannot influence control flow once the agent's outcome is fixed, so it
is folded into `outcomes`. -/

/-- Dispatch/completion events of a workflow execution. -/
inductive ExecEvent where
  | dispatch (sid : String)
  | complete (sid : String)
deriving DecidableEq, Repr

/-- Trace of `_execute_steps` on a run where every step exists, is
unconditional and succeeds: steps run one at a time, in execution
order. -/
def seqTrace (order : List String) : List ExecEvent :=
  order.flatMap (fun sid => [.dispatch sid, .complete sid])

/-- Trace of `_execute_steps_parallel` on such a run: per group, every
task of the group is created and started (dispatched) and the
surrounding `asyncio.gather` returns only once all of them completed;
the next group starts after that. -/
def parTrace (groups : List (List String)) : List ExecEvent :=
  groups.flatMap (fun g => g.map .dispatch ++ g.map .complete)

/-- Position of the first occurrence of an event in a trace
(`trace.length` when absent). -/
def eventIndex (tr : List ExecEvent) (e : ExecEvent) : Nat := tr.indexOf e

/-- The temporal property claimed of execution: for every dependency
edge `u → v` between existing steps, if `v` was dispatched then `u`
completed strictly earlier. -/
def respectsDependencies (steps : List WorkflowStep) (tr : List ExecEvent) : Bool :=
  steps.all fun t =>
    (t.depends_on.filter (fun d => (stepIds steps).contains d)).all fun u =>
      !(tr.contains (.dispatch t.step_id)) ||
      (tr.contains (.complete u) &&
        decide (eventIndex tr (.complete u) < eventIndex tr (.dispatch t.step_id)))

/-- The mutable execution context (`ExecutionContext`): step results,
recorded errors (step id and message), and the shared `state` dict fed
by `output_key`. -/
structure ExecCtx where
  step_results : List (String × PyValue)
  errors : List (String × String)
  state : List (String × PyValue)
deriving Repr

/-- The fresh context of `execute`. -/
def emptyCtx : ExecCtx := { step_results := [], errors := [], state := [] }

/-- Outcome of one step's try-block. -/
inductive StepRun where
  | skipped
  | succeeded (v : PyValue)
  | failed (e : String)
deriving Repr

/-- The try-block shared by `_execute_steps` and
`_execute_single_step`: evaluate the condition (an evaluation raise is
caught by the step's handler and fails the step), run the agent; on
success store the result and publish `output_key` into the state. -/
def runStepBody (rc : PyValue → Except String (PyValue → Bool))
    (outcomes : String → Except String PyValue)
    (st : WorkflowStep) (ctx : ExecCtx) : StepRun × ExecCtx :=
  match shouldExecuteStep rc st ctx.state with
  | .error e => (.failed e, ctx)
  | .ok false => (.skipped, ctx)
  | .ok true =>
      match outcomes st.step_id with
      | .error e => (.failed e, ctx)
      | .ok v =>
          let ctx' : ExecCtx :=
            { ctx with
              step_results := aset ctx.step_results st.step_id v,
              state := match st.output_key with
                       | some k => aset ctx.state k v
                       | none => ctx.state }
          (.succeeded v, ctx')

/-- `_execute_steps` (sequential mode): walk the execution order; a
missing step is skipped with a warning; a skipped step leaves no trace;
a success is added to `results`; a failure is recorded in the context
errors and aborts the run unless `continue_on_error`.  The third
component is the propagated exception, if any. -/
def execStepsSeq (rc : PyValue → Except String (PyValue → Bool))
    (outcomes : String → Except String PyValue)
    (steps : List WorkflowStep) (continueOnError : Bool) :
    List String → ExecCtx → List (String × PyValue) →
    ExecCtx × List (String × PyValue) × Option String
  | [], ctx, results => (ctx, results, none)
  | sid :: rest, ctx, results =>
      match findStep steps sid with
      | none => execStepsSeq rc outcomes steps continueOnError rest ctx results
      | some st =>
          match runStepBody rc outcomes st ctx with
          | (.skipped, ctx') =>
              execStepsSeq rc outcomes steps continueOnError rest ctx' results
          | (.succeeded v, ctx') =>
              execStepsSeq rc outcomes steps continueOnError rest ctx'
                (aset results sid v)
          | (.failed e, ctx') =>
              let ctx'' := { ctx' with errors := ctx'.errors ++ [(sid, e)] }
              if continueOnError then
                execStepsSeq rc outcomes steps continueOnError rest ctx'' results
              else (ctx'', results, some e)

/-- One parallel group of `_execute_steps_parallel`: the group's tasks
run under one `asyncio.gather` against the shared context (modelled in
group order; outcomes depend only on the step id).  A failing task
records its error in the context (the `except` of
`_execute_single_step`) and its exception is collected for the
result-processing loop.  Only truthy results are added to `results`
(`if result:`). -/
def execGroup (rc : PyValue → Except String (PyValue → Bool))
    (outcomes : String → Except String PyValue) (steps : List WorkflowStep) :
    List String → ExecCtx → List (String × PyValue) →
    ExecCtx × List (String × PyValue) × List (String × String)
  | [], ctx, results => (ctx, results, [])
  | sid :: rest, ctx, results =>
      match findStep steps sid with
      | none => execGroup rc outcomes steps rest ctx results
      | some st =>
          match runStepBody rc outcomes st ctx with
          | (.skipped, ctx') => execGroup rc outcomes steps rest ctx' results
          | (.succeeded v, ctx') =>
              execGroup rc outcomes steps rest ctx'
                (if pyTruthy v then aset results sid v else results)
          | (.failed e, ctx') =>
              let ctx'' := { ctx' with errors := ctx'.errors ++ [(sid, e)] }
              let (ctxF, resultsF, failures) := execGroup rc outcomes steps rest ctx'' results
              (ctxF, resultsF, (sid, e) :: failures)

/-- The result-processing loop after a group's gather: each collected
exception is recorded in the context a second time; without
`continue_on_error` the first one is re-raised. -/
def processGroupResults (continueOnError : Bool) :
    List (String × String) → ExecCtx → ExecCtx × Option String
  | [], ctx => (ctx, none)
  | (sid, e) :: rest, ctx =>
      let ctx' := { ctx with errors := ctx.errors ++ [(sid, e)] }
      if continueOnError then processGroupResults continueOnError rest ctx'
      else (ctx', some e)

/-- `_execute_steps_parallel`: groups run in order; a propagated
exception aborts the remaining groups. -/
def execStepsPar (rc : PyValue → Except String (PyValue → Bool))
    (outcomes : String → Except String PyValue)
    (steps : List WorkflowStep) (continueOnError : Bool) :
    List (List String) → ExecCtx → List (String × PyValue) →
    ExecCtx × List (String × PyValue) × Option String
  | [], ctx, results => (ctx, results, none)
  | g :: gs, ctx, results =>
      let (ctx', results', failures) := execGroup rc outcomes steps g ctx results
      match processGroupResults continueOnError failures ctx' with
      | (ctx'', some e) => (ctx'', results', some e)
      | (ctx'', none) =>
          execStepsPar rc outcomes steps continueOnError gs ctx'' results'

/-- The options read by `execute`. -/
structure ExecOptions where
  enable_parallel : Bool := true
  continue_on_error : Bool := false

/-- What `execute` returns: the `status` entry, the `steps` map
(`context.get_step_result(sid)` per step of the execution order, `None`
for a step without a stored result) on the completed path, and the
`error` entry on the failed path. -/
structure ExecResult where
  status : String
  result_steps : List (String × PyValue)
  error : Option String
deriving Repr

/-- `WorkflowExecutor.execute`: plan (a planning exception yields the
failed dict), run steps in the selected mode, and wrap up; the
execution context is returned alongside, as the code keeps it in
`self.execution_contexts`. -/
def execute (rc : PyValue → Except String (PyValue → Bool))
    (outcomes : String → Except String PyValue)
    (steps : List WorkflowStep) (options : ExecOptions) :
    ExecResult × ExecCtx :=
  match calculate_execution_order steps with
  | .error e =>
      ({ status := "failed", result_steps := [], error := some e }, emptyCtx)
  | .ok order =>
      let (ctx, _, exc) :=
        if options.enable_parallel then
          let groups := (parallelGroupsFold steps order).map (fun g => g.map (·.step_id))
          execStepsPar rc outcomes steps options.continue_on_error groups emptyCtx []
        else
          execStepsSeq rc outcomes steps options.continue_on_error order emptyCtx []
      match exc with
      | some e => ({ status := "failed", result_steps := [], error := some e }, ctx)
      | none =>
          ({ status := "completed",
             result_steps :=
               order.map (fun sid => (sid, (alookup ctx.step_results sid).getD .vnone)),
             error := none }, ctx)

/-! ## Selector (`AgentSelector`) -/

/-- A scored candidate, as produced by `_score_agents`; the weighted
float arithmetic is abstracted into a `Rat` total score — the claims
below concern only how the total scores are compared. -/
structure AgentScore where
  agent_id : String
  total_score : Rat
deriving Repr

/-- Python's `max(scores, key=lambda s: s.total_score)`: fold keeping
the current best, replacing it only on a strictly greater key — ties
keep the earlier element. -/
def pyMaxByScore (h : AgentScore) (t : List AgentScore) : AgentScore :=
  t.foldl (fun best s => if s.total_score > best.total_score then s else best) h

/-- `AgentSelector.select_for_step`, from the scored candidate list on:
no candidates yields `None`, otherwise the agent of the Python
maximum. -/
def select_for_step (scores : List AgentScore) : Option String :=
  match scores with
  | [] => none
  | h :: t => some (pyMaxByScore h t).agent_id

/-- The workload tracker, agent id to `current_tasks` (the other dict
entries are never read by the modelled operations). -/
abbrev WorkloadTracker : Type := List (String × Int)

/-- `AgentSelector.track_workload`: create the entry if missing, then
set `current_tasks`. -/
def track_workload (t : WorkloadTracker) (aid : String) (count : Int) : WorkloadTracker :=
  aset t aid count

/-- `AgentSelector.increment_workload`. -/
def increment_workload (t : WorkloadTracker) (aid : String) : WorkloadTracker :=
  let t' := if (alookup t aid).isNone then track_workload t aid 0 else t
  aset t' aid (((alookup t' aid).getD 0) + 1)

/-- `AgentSelector.decrement_workload`: clamp at zero; no-op for an
unknown agent id. -/
def decrement_workload (t : WorkloadTracker) (aid : String) : WorkloadTracker :=
  match alookup t aid with
  | none => t
  | some c => aset t aid (max 0 (c - 1))

/-! ## Circuit breaker (`CircuitBreaker`)

Wall-clock instants (`datetime.utcnow()`) are passed in explicitly as
`Rat` seconds. -/

/-- `CircuitState`. -/
inductive CircuitState where
  | closed
  | opened
  | halfOpen
deriving DecidableEq, Repr

/-- The constructor configuration. -/
structure CBConfig where
  failure_threshold : Nat := 5
  timeout : Rat := 60
  half_open_max_calls : Nat := 3
  success_threshold : Nat := 2

/-- The mutable breaker state. -/
structure CBState where
  state : CircuitState := .closed
  failure_count : Nat := 0
  success_count : Nat := 0
  last_failure_time : Option Rat := none
  half_open_calls : Nat := 0
deriving Repr

/-- `_open_circuit`. -/
def openCircuit (cb : CBState) : CBState :=
  { cb with state := .opened, half_open_calls := 0, success_count := 0 }

/-- `_close_circuit`. -/
def closeCircuit (cb : CBState) : CBState :=
  { cb with state := .closed, failure_count := 0, success_count := 0,
            half_open_calls := 0 }

/-- `record_success`. -/
def record_success (cfg : CBConfig) (cb : CBState) : CBState :=
  match cb.state with
  | .halfOpen =>
      let cb' := { cb with success_count := cb.success_count + 1 }
      if cb'.success_count ≥ cfg.success_threshold then closeCircuit cb' else cb'
  | .closed => { cb with failure_count := 0 }
  | .opened => cb

/-- `record_failure`, at wall-clock instant `now`. -/
def record_failure (cfg : CBConfig) (now : Rat) (cb : CBState) : CBState :=
  let cb' := { cb with failure_count := cb.failure_count + 1,
                       last_failure_time := some now }
  if cb'.state = .closed ∧ cb'.failure_count ≥ cfg.failure_threshold then
    openCircuit cb'
  else if cb'.state = .halfOpen then openCircuit cb'
  else cb'

/-- `_try_half_open`, at instant `now`. -/
def tryHalfOpen (cfg : CBConfig) (now : Rat) (cb : CBState) : CBState :=
  if cb.state = .opened then
    match cb.last_failure_time with
    | some t =>
        if now - t ≥ cfg.timeout then
          { cb with state := .halfOpen, half_open_calls := 0, success_count := 0 }
        else cb
    | none => cb
  else cb

/-- Whether a protected call was admitted or rejected with
`CircuitBreakerOpenError`. -/
inductive CallResult where
  | rejected
  | executed (success : Bool)
deriving DecidableEq, Repr

/-- `call_async` at instant `now`, where `outcome` says whether the
wrapped coroutine returns or raises. -/
def call_async (cfg : CBConfig) (now : Rat) (outcome : Bool) (cb : CBState) :
    CallResult × CBState :=
  let cb := tryHalfOpen cfg now cb
  if cb.state = .opened then (.rejected, cb)
  else
    let admitted : Option CBState :=
      if cb.state = .halfOpen then
        if cb.half_open_calls ≥ cfg.half_open_max_calls then none
        else some { cb with half_open_calls := cb.half_open_calls + 1 }
      else some cb
    match admitted with
    | none => (.rejected, cb)
    | some cb' =>
        if outcome then (.executed true, record_success cfg cb')
        else (.executed false, record_failure cfg now cb')

/-! ## Retry (`RetryPolicy`, `RetryHandler`)

Exceptions are modelled as their string message; the wrapped function
is a map from invocation index to its outcome.  Delays (`get_delay`,
`asyncio.sleep`) do not influence any claim and are not modelled. -/

/-- The retry policy fields read by `should_retry`:
`retryable_exception` abstracts the `isinstance(e,
retryable_exceptions)` test. -/
structure RetryPolicy where
  max_retries : Nat := 3
  retryable_exception : String → Bool := fun _ => true
  retryable_errors : List String := []

/-- `RetryPolicy.should_retry`. -/
def should_retry (p : RetryPolicy) (attempt : Nat) (e : String) : Bool :=
  if attempt ≥ p.max_retries then false
  else if !p.retryable_exception e then false
  else if !p.retryable_errors.isEmpty &&
          !(p.retryable_errors.any (fun pat => pySubstr (strLower pat) (strLower e))) then
    false
  else true

/-- The `for attempt in range(max_retries + 1)` loop of
`execute_with_retry`, returning the overall outcome and the number of
invocations performed.  The post-loop re-raise is reached only when
every iteration continued, which the final iteration never does. -/
def retryLoop (p : RetryPolicy) (f : Nat → Except String PyValue)
    (lastE : Option String) : List Nat → Except String PyValue × Nat
  | [] =>
      (match lastE with
       | some e => .error e
       | none => .error "Retry failed without exception", 0)
  | attempt :: rest =>
      match f attempt with
      | .ok v => (.ok v, 1)
      | .error e =>
          if should_retry p attempt e then
            let (r, n) := retryLoop p f (some e) rest
            (r, n + 1)
          else (.error e, 1)

/-- `RetryHandler.execute_with_retry`. -/
def execute_with_retry (p : RetryPolicy) (f : Nat → Except String PyValue) :
    Except String PyValue × Nat :=
  retryLoop p f none (List.range (p.max_retries + 1))

/-! ## State store (`StateStore`, store.py) -/

/-- One workflow's entry in `self.states`: the `versions` dict (version
number to stored state; the `created_at` stamp is not modelled) and
`current_version`. -/
structure StoreEntry where
  versions : List (Int × PyValue)
  current_version : Int
deriving Repr

/-- `self.states`. -/
abbrev StateStoreData : Type := List (String × StoreEntry)

/-- `StateStore.save_state`: create the workflow entry on first use,
auto-assign `current_version + 1` when no explicit version is passed,
write the version slot, and move `current_version` to the written
version.  Returns the version written. -/
def save_state (store : StateStoreData) (wid : String) (state : PyValue)
    (version : Option Int) : Int × StateStoreData :=
  let entry := (alookup store wid).getD { versions := [], current_version := 0 }
  let v := version.getD (entry.current_version + 1)
  let entry' : StoreEntry := { versions := aset entry.versions v state,
                               current_version := v }
  (v, aset store wid entry')

/-- `StateStore.get_state`: default to `current_version`; `None` for an
unknown workflow or version. -/
def get_state (store : StateStoreData) (wid : String) (version : Option Int) :
    Option PyValue :=
  match alookup store wid with
  | none => none
  | some entry => alookup entry.versions (version.getD entry.current_version)

/-- The largest version stored for an entry (0 when empty); what the
spec calls `prior_max`. -/
def maxStoredVersion (entry : StoreEntry) : Int :=
  (entry.versions.map Prod.fst).foldr max 0

/-- A sequence of auto-versioned saves (`version=None`) for one
workflow id: the versions returned, and the final store. -/
def autoSaves (wid : String) : List PyValue → StateStoreData → List Int × StateStoreData
  | [], store => ([], store)
  | st :: rest, store =>
      let (v, store') := save_state store wid st none
      let (vs, storeF) := autoSaves wid rest store'
      (v :: vs, storeF)

/-! ## Notions used by the statements -/

/-- A dependency edge `u → v` of the workflow graph: some existing step
`v` lists the existing step `u` among its dependencies.  (A dependency
naming no existing step is ignored by the planner.) -/
def depEdge (steps : List WorkflowStep) (u v : String) : Prop :=
  ∃ t ∈ steps, t.step_id = v ∧ u ∈ t.depends_on ∧ u ∈ stepIds steps

/-- The dependency graph contains a directed cycle: a chain of edges of
length at least one whose first and last vertices coincide. -/
def hasDepCycle (steps : List WorkflowStep) : Prop :=
  ∃ c : List String, 2 ≤ c.length ∧ c.head? = c.getLast? ∧
    c.Chain' (depEdge steps)

/-- A rank function witnessing acyclicity: strictly increasing along
every dependency edge. -/
def depRank (steps : List WorkflowStep) (rank : String → Nat) : Prop :=
  ∀ u v, depEdge steps u v → rank u < rank v

/-- The invariant of the Kahn loop relating the queue, the in-degree
dict and the emitted prefix of the execution order. -/
def KahnInv (steps : List WorkflowStep) (queue : List String)
    (deg : String → Int) (order : List String) : Prop :=
  (∀ x ∈ order ++ queue, x ∈ stepIds steps) ∧
  (order ++ queue).Nodup ∧
  (∀ s ∈ steps, deg s.step_id =
      initialDegree steps s -
        ((order.filter (fun u => s.depends_on.contains u)).length : Int)) ∧
  (∀ s ∈ steps, deg s.step_id = 0 → s.step_id ∈ order ++ queue) ∧
  (∀ k, (h : k < order.length) → ∀ u, depEdge steps u (order.get ⟨k, h⟩) →
      u ∈ order.take k) ∧
  (∀ v ∈ queue, ∀ u, depEdge steps u v → u ∈ order) ∧
  (∀ s ∈ steps, s.step_id ∈ order ++ queue → deg s.step_id ≤ 0)

/-- The initial in-degree dict of `calculate_execution_order` as a
function (`in_degree[x]`, 0 off-dict). -/
def kahnDeg0 (steps : List WorkflowStep) : String → Int := fun x =>
  match findStep steps x with
  | some s => initialDegree steps s
  | none => 0

/-- The initial queue of `calculate_execution_order`: the ids of the
steps with zero in-degree, in insertion order. -/
def kahnQueue0 (steps : List WorkflowStep) : List String :=
  (steps.filter (fun s => initialDegree steps s == 0)).map (·.step_id)

/-- Index of the parallel group containing a step id
(`groups.length` when absent). -/
def groupIndexOf (groups : List (List String)) (sid : String) : Nat :=
  groups.findIdx (fun g => g.contains sid)

/-- A sequence of `record_failure` events at the given instants. -/
def applyFailures (cfg : CBConfig) (ts : List Rat) (cb : CBState) : CBState :=
  ts.foldl (fun c t => record_failure cfg t c) cb

/-- A workload-tracker operation. -/
inductive WorkloadOp where
  | inc (aid : String)
  | dec (aid : String)

/-- Apply a sequence of increment/decrement operations. -/
def applyWorkloadOps (ops : List WorkloadOp) (t : WorkloadTracker) : WorkloadTracker :=
  ops.foldl
    (fun t op =>
      match op with
      | .inc aid => increment_workload t aid
      | .dec aid => decrement_workload t aid)
    t

/-- The error-level part of `should_retry`: the exception passes the
`isinstance` test and, when `retryable_errors` is non-empty, some
pattern occurs in the lowercased message. -/
def retryableError (p : RetryPolicy) (e : String) : Bool :=
  p.retryable_exception e &&
    (p.retryable_errors.isEmpty ||
      p.retryable_errors.any (fun pat => pySubstr (strLower pat) (strLower e)))

/-! ## Concrete scenario inputs -/

/-- A regex-compile abstraction for workflows that use no regex
conditions (its value is never consulted there). -/
def noRegexCompile : PyValue → Except String (PyValue → Bool) :=
  fun _ => .error "re.error"

/-- Agent outcomes for a run of the research workflow in which the
`analyze` agent raises and both other agents return `{"x": 1}`. -/
def failAnalyzeOutcomes : String → Except String PyValue :=
  fun sid => if sid = "analyze" then .error "boom"
             else .ok (.vdict [("x", .vint 1)])

/-- Steps `a ↔ b`: a two-cycle. -/
def cycleStepsAB : List WorkflowStep :=
  [ { step_id := "a", agent_type := "t", depends_on := ["b"],
      output_key := none, condition := none },
    { step_id := "b", agent_type := "t", depends_on := ["a"],
      output_key := none, condition := none } ]

/-- Steps `c ↔ d`: a two-cycle on different step names. -/
def cycleStepsCD : List WorkflowStep :=
  [ { step_id := "c", agent_type := "t", depends_on := ["d"],
      output_key := none, condition := none },
    { step_id := "d", agent_type := "t", depends_on := ["c"],
      output_key := none, condition := none } ]

/-- An acyclic two-step workflow whose second step lists its (single)
dependency twice. -/
def dupDepSteps : List WorkflowStep :=
  [ { step_id := "a", agent_type := "t", depends_on := [],
      output_key := none, condition := none },
    { step_id := "b", agent_type := "t", depends_on := ["a", "a"],
      output_key := none, condition := none } ]

/-- The policy of the spec's retry scenario: `max_retries = 3`, every
exception type retryable, no message patterns. -/
def c9Policy : RetryPolicy :=
  { max_retries := 3, retryable_exception := fun _ => true,
    retryable_errors := [] }

/-- An agent that fails twice with a retryable error and succeeds on
the third invocation. -/
def c9Outcomes : Nat → Except String PyValue :=
  fun i => if i < 2 then .error "transient error" else .ok (.vstr "done")

/-- `save w "a"`, then `save w "b"` (both auto-versioned). -/
def c5Store2 : Int × StateStoreData :=
  save_state (save_state [] "w" (.vstr "a") none).2 "w" (.vstr "b") none

/-- ... then an explicit-version save at version 1, as
`restore_from_checkpoint` performs. -/
def c5Store3 : Int × StateStoreData :=
  save_state c5Store2.2 "w" (.vstr "c") (some 1)

/-- ... then another auto-versioned save. -/
def c5Store4 : Int × StateStoreData :=
  save_state c5Store3.2 "w" (.vstr "d") none

/-! ## Theorems -/

/-- C1: the claim asserts that `get_parallel_groups` partitions the
topological order so that each step's (transitive) dependencies sit in
strictly earlier groups, and that the `research_and_analyze` template
yields `[[research], [analyze], [synthesize]]`.  Evaluating the code on
that template instead yields `[[research, synthesize], [analyze]]`:
`synthesize` is placed in group 0 while its direct dependency `analyze`
is placed in group 1, because the grouping loop only tests direct
conflicts against current group members. -/
theorem C1_research_parallel_groups_evaluation :
    get_parallel_groups researchSteps =
      .ok [["research", "synthesize"], ["analyze"]] ∧
    calculate_execution_order researchSteps =
      .ok ["research", "analyze", "synthesize"] ∧
    findStep researchSteps "synthesize" =
      some { step_id := "synthesize", agent_type := "synthesis_agent",
             depends_on := ["analyze"], output_key := some "final_result",
             condition := none } ∧
    groupIndexOf [["research", "synthesize"], ["analyze"]] "synthesize" = 0 ∧
    groupIndexOf [["research", "synthesize"], ["analyze"]] "analyze" = 1 :=
  ⟨rfl, rfl, rfl, rfl, rfl⟩

/-- C2: the claim asserts that in both execution modes a step's
dependencies complete before the step is dispatched.  With
`enable_parallel` (the default), the executor walks the parallel groups
`[[research, synthesize], [analyze]]`, so `synthesize` is dispatched in
group 0 before its dependency `analyze` (group 1) even starts; the
sequential mode does respect the edge. -/
theorem C2_parallel_dispatch_before_dependency_completion :
    get_parallel_groups researchSteps =
      .ok [["research", "synthesize"], ["analyze"]] ∧
    respectsDependencies researchSteps
      (parTrace [["research", "synthesize"], ["analyze"]]) = false ∧
    eventIndex (parTrace [["research", "synthesize"], ["analyze"]])
        (.dispatch "synthesize") <
      eventIndex (parTrace [["research", "synthesize"], ["analyze"]])
        (.complete "analyze") ∧
    respectsDependencies researchSteps
      (seqTrace ["research", "analyze", "synthesize"]) = true :=
  ⟨rfl, rfl, by decide, rfl⟩

/-- C3 counterexample: a sequential run of the research workflow with
`continue_on_error = true` in which `analyze` fails returns overall
status `completed`, not `partial`; the failure is recorded only in the
execution context's error list. -/
theorem C3_counterexample :
    (execute noRegexCompile failAnalyzeOutcomes researchSteps
        { enable_parallel := false, continue_on_error := true }).1.status
      = "completed" ∧
    (execute noRegexCompile failAnalyzeOutcomes researchSteps
        { enable_parallel := false, continue_on_error := true }).2.errors
      = [("analyze", "boom")] ∧
    (execute noRegexCompile failAnalyzeOutcomes researchSteps
        { enable_parallel := false, continue_on_error := true }).1.status
      ≠ "partial" :=
  ⟨rfl, rfl, by decide⟩

/-- C4 counterexample: on a field absent from the context state,
`not_equals` evaluates to true (the claim says false), `greater_than`
raises `TypeError` (the claim says false and never raise), and
`not_in` evaluates to true (the claim says false). -/
theorem C4_counterexample :
    evalSimpleCondition noRegexCompile
        { field := some "x", operator := some "not_equals", value := .vint 1 }
        [] = .ok true ∧
    evalSimpleCondition noRegexCompile
        { field := some "x", operator := some "greater_than", value := .vint 1 }
        [] = .error "TypeError" ∧
    evalSimpleCondition noRegexCompile
        { field := some "x", operator := some "not_in", value := .vlist [.vint 1] }
        [] = .ok true :=
  ⟨rfl, rfl, rfl⟩

/-- C5 counterexample: after two auto-versioned saves (versions 1, 2)
and an explicit save at version 1 (as checkpoint restore performs), the
maximum stored version is 2, yet the next auto-versioned save is
assigned version 2 — not `prior_max + 1 = 3` — and overwrites the state
previously stored at version 2. -/
theorem C5_counterexample :
    c5Store2.1 = 2 ∧
    get_state c5Store2.2 "w" (some 2) = some (.vstr "b") ∧
    c5Store3.1 = 1 ∧
    maxStoredVersion
        ((alookup c5Store3.2 "w").getD { versions := [], current_version := 0 })
      = 2 ∧
    c5Store4.1 = 2 ∧
    get_state c5Store4.2 "w" (some 2) = some (.vstr "d") :=
  ⟨rfl, rfl, rfl, rfl, rfl, rfl⟩

/-- C6 counterexample: with two candidates of equal total score
enumerated as `b` then `a`, selection returns `b`, although the
lexically smallest tied agent id is `a` — Python's `max` keeps the
first maximal element, so enumeration order decides ties. -/
theorem C6_counterexample :
    select_for_step
        [ { agent_id := "b", total_score := 1 },
          { agent_id := "a", total_score := 1 } ] = some "b" ∧
    ("a" : String) < "b" :=
  ⟨rfl, by rw [String.lt_iff_toList_lt]; decide⟩

/-- C8 counterexample: the cycle error is the fixed string
`"Circular dependency detected in workflow"` for the disjoint cycles
`{a, b}` and `{c, d}` alike, so it names no remaining step set; and the
acyclic workflow whose step `b` lists its dependency `a` twice fails
with the same cycle error, contradicting the claim's acyclic-success
half as stated. -/
theorem C8_counterexample :
    calculate_execution_order cycleStepsAB =
      .error "Circular dependency detected in workflow" ∧
    calculate_execution_order cycleStepsCD =
      .error "Circular dependency detected in workflow" ∧
    calculate_execution_order dupDepSteps =
      .error "Circular dependency detected in workflow" :=
  ⟨rfl, rfl, rfl⟩

/-! ### Association-list lemmas -/

lemma alookup_mem {κ α : Type} [DecidableEq κ] {l : List (κ × α)} {k : κ} {v : α}
    (h : alookup l k = some v) : (k, v) ∈ l := by
  induction l with
  | nil => simp [alookup] at h
  | cons p rest ih =>
      obtain ⟨k', w⟩ := p
      by_cases hk : k' = k
      · subst hk
        simp [alookup] at h
        simp [h]
      · simp [alookup, hk] at h
        exact List.mem_cons_of_mem _ (ih h)

lemma mem_aset {κ α : Type} [DecidableEq κ] {l : List (κ × α)} {k : κ} {v : α}
    {p : κ × α} (h : p ∈ aset l k v) : p = (k, v) ∨ p ∈ l := by
  induction l with
  | nil => simp [aset] at h; simp [h]
  | cons q rest ih =>
      obtain ⟨k', w⟩ := q
      by_cases hk : k' = k
      · subst hk
        simp [aset] at h
        rcases h with h | h
        · exact Or.inl h
        · exact Or.inr (List.mem_cons_of_mem _ h)
      · simp [aset, hk] at h
        rcases h with h | h
        · exact Or.inr (by simp [h])
        · rcases ih h with h' | h'
          · exact Or.inl h'
          · exact Or.inr (List.mem_cons_of_mem _ h')

lemma alookup_aset_self {κ α : Type} [DecidableEq κ] (l : List (κ × α)) (k : κ) (v : α) :
    alookup (aset l k v) k = some v := by
  induction l with
  | nil => simp [aset, alookup]
  | cons q rest ih =>
      obtain ⟨k', w⟩ := q
      by_cases hk : k' = k
      · subst hk; simp [aset, alookup]
      · simp [aset, alookup, hk, ih]

lemma alookup_aset_ne {κ α : Type} [DecidableEq κ] (l : List (κ × α)) (k k' : κ)
    (v : α) (h : k' ≠ k) : alookup (aset l k v) k' = alookup l k' := by
  have hne : k ≠ k' := fun hh => h hh.symm
  induction l with
  | nil => simp [aset, alookup, hne]
  | cons q rest ih =>
      obtain ⟨k'', w⟩ := q
      by_cases hk : k'' = k
      · subst hk
        simp [aset, alookup, hne]
      · by_cases hk2 : k'' = k'
        · subst hk2; simp [aset, alookup, hk]
        · simp [aset, alookup, hk, hk2, ih]

/-! ### C10: the workload counter -/

lemma alookup_nonneg {t : WorkloadTracker} (h : ∀ p ∈ t, 0 ≤ p.2)
    {aid : String} {c : Int} (hc : alookup t aid = some c) : 0 ≤ c :=
  h (aid, c) (alookup_mem hc)

lemma increment_nonneg {t : WorkloadTracker} (h : ∀ p ∈ t, 0 ≤ p.2)
    (aid : String) : ∀ p ∈ increment_workload t aid, 0 ≤ p.2 := by
  intro p hp
  unfold increment_workload at hp
  rcases mem_aset hp with hpeq | hpmem
  · subst hpeq
    simp only
    rcases hcase : alookup t aid with _ | c
    · simp [track_workload, hcase, alookup_aset_self]
    · have h0 : (0 : Int) ≤ c := alookup_nonneg h hcase
      simp [hcase]
      omega
  · rcases hcase : alookup t aid with _ | c
    · simp only [track_workload, hcase] at hpmem
      rcases mem_aset hpmem with hpeq' | hpmem'
      · simp [hpeq']
      · exact h p hpmem'
    · simp only [hcase] at hpmem
      exact h p hpmem

lemma decrement_nonneg {t : WorkloadTracker} (h : ∀ p ∈ t, 0 ≤ p.2)
    (aid : String) : ∀ p ∈ decrement_workload t aid, 0 ≤ p.2 := by
  intro p hp
  unfold decrement_workload at hp
  rcases hcase : alookup t aid with _ | c
  · rw [hcase] at hp; exact h p hp
  · rw [hcase] at hp
    rcases mem_aset hp with hpeq | hpmem
    · subst hpeq; simp
    · exact h p hpmem

lemma applyWorkloadOps_nonneg (ops : List WorkloadOp) :
    ∀ t : WorkloadTracker, (∀ p ∈ t, 0 ≤ p.2) →
      ∀ p ∈ applyWorkloadOps ops t, 0 ≤ p.2 := by
  induction ops with
  | nil => intro t h p hp; exact h p hp
  | cons op rest ih =>
      intro t h p hp
      unfold applyWorkloadOps at hp
      rw [List.foldl_cons] at hp
      cases op with
      | inc aid => exact ih _ (increment_nonneg h aid) p hp
      | dec aid => exact ih _ (decrement_nonneg h aid) p hp

/-- C10: the workload counter never goes negative: under every
interleaving of `increment_workload` and `decrement_workload` calls
from a tracker whose counters are non-negative, every stored counter
stays non-negative; `decrement_workload` is a no-op for an agent id
without an entry; and a counter at zero stays at zero when
decremented. -/
theorem C10_workload_counter_nonnegative :
    (∀ t : WorkloadTracker, (∀ p ∈ t, 0 ≤ p.2) →
      ∀ ops aid c, alookup (applyWorkloadOps ops t) aid = some c → 0 ≤ c) ∧
    (∀ (t : WorkloadTracker) aid, alookup t aid = none →
      decrement_workload t aid = t) ∧
    (∀ (t : WorkloadTracker) aid, alookup t aid = some 0 →
      alookup (decrement_workload t aid) aid = some 0) := by
  refine ⟨?_, ?_, ?_⟩
  · intro t hall ops aid c hc
    exact alookup_nonneg (applyWorkloadOps_nonneg ops t hall) hc
  · intro t aid h
    unfold decrement_workload
    rw [h]
  · intro t aid h
    unfold decrement_workload
    rw [h]
    simp [alookup_aset_self]

/-- C10 witness: the invariant instantiated on the tracker `{a: 1}`
under increment, decrement, decrement; the no-op on the empty tracker;
and the clamp at zero. -/
theorem C10_workload_counter_nonnegative_witness :
    (0 : Int) ≤ 0 ∧
    decrement_workload ([] : WorkloadTracker) "a" = [] ∧
    alookup (decrement_workload [("a", (0 : Int))] "a") "a" = some 0 :=
  ⟨C10_workload_counter_nonnegative.1 [("a", 1)] (by decide)
      [.inc "a", .dec "a", .dec "a"] "a" 0 rfl,
   C10_workload_counter_nonnegative.2.1 [] "a" rfl,
   C10_workload_counter_nonnegative.2.2 [("a", 0)] "a" rfl⟩

/-! ### C7: circuit breaker transitions -/

lemma record_failure_opened (cfg : CBConfig) (now : Rat) (cb : CBState)
    (h : cb.state = .opened) : (record_failure cfg now cb).state = .opened := by
  unfold record_failure
  simp [h]

lemma applyFailures_opened (cfg : CBConfig) (ts : List Rat) :
    ∀ cb : CBState, cb.state = .opened →
      (applyFailures cfg ts cb).state = .opened := by
  induction ts with
  | nil => intro cb h; exact h
  | cons t rest ih =>
      intro cb h
      unfold applyFailures
      rw [List.foldl_cons]
      exact ih _ (record_failure_opened cfg t cb h)

lemma record_failure_closed_step (cfg : CBConfig) (now : Rat) (cb : CBState)
    (h : cb.state = .closed) (hlt : cb.failure_count + 1 < cfg.failure_threshold) :
    (record_failure cfg now cb).state = .closed ∧
      (record_failure cfg now cb).failure_count = cb.failure_count + 1 := by
  unfold record_failure
  have : ¬ cfg.failure_threshold ≤ cb.failure_count + 1 := by omega
  simp [h, this]

lemma failures_reach_threshold (cfg : CBConfig) (ts : List Rat) :
    ∀ cb : CBState, cb.state = .closed →
      cb.failure_count + ts.length = cfg.failure_threshold → ts ≠ [] →
      (applyFailures cfg ts cb).state = .opened := by
  induction ts with
  | nil => intro cb _ _ hne; exact absurd rfl hne
  | cons t rest ih =>
      intro cb hcl hsum _
      unfold applyFailures
      rw [List.foldl_cons]
      rcases List.eq_nil_or_concat rest with hrest | _
      · subst hrest
        simp at hsum
        have hopen : (record_failure cfg t cb).state = .opened := by
          unfold record_failure
          have : cfg.failure_threshold ≤ cb.failure_count + 1 := by omega
          simp [hcl, this, openCircuit]
        simpa [applyFailures] using hopen
      · by_cases hone : rest = []
        · subst hone
          simp at hsum
          have hopen : (record_failure cfg t cb).state = .opened := by
            unfold record_failure
            have : cfg.failure_threshold ≤ cb.failure_count + 1 := by omega
            simp [hcl, this, openCircuit]
          simpa [applyFailures] using hopen
        · have hlen : 1 ≤ rest.length := by
            cases rest with
            | nil => exact absurd rfl hone
            | cons _ _ => simp
          have hlt : cb.failure_count + 1 < cfg.failure_threshold := by
            simp [List.length_cons] at hsum
            omega
          obtain ⟨hst, hct⟩ := record_failure_closed_step cfg t cb hcl hlt
          have := ih (record_failure cfg t cb) hst
            (by rw [hct]; simp [List.length_cons] at hsum; omega) hone
          exact this

lemma record_success_halfOpen_step (cfg : CBConfig) (cb : CBState)
    (h : cb.state = .halfOpen)
    (hlt : cb.success_count + 1 < cfg.success_threshold) :
    (record_success cfg cb).state = .halfOpen ∧
      (record_success cfg cb).success_count = cb.success_count + 1 := by
  unfold record_success
  have : ¬ cfg.success_threshold ≤ cb.success_count + 1 := by omega
  simp [h, this]

lemma successes_reach_threshold (cfg : CBConfig) (n : Nat) :
    ∀ cb : CBState, cb.state = .halfOpen →
      cb.success_count + n = cfg.success_threshold → 1 ≤ n →
      ((record_success cfg)^[n] cb).state = .closed := by
  induction n with
  | zero => intro _ _ _ h1; omega
  | succ m ih =>
      intro cb hho hsum _
      rw [Function.iterate_succ_apply]
      by_cases hm : m = 0
      · subst hm
        have hclose : (record_success cfg cb).state = .closed := by
          unfold record_success
          have : cfg.success_threshold ≤ cb.success_count + 1 := by omega
          simp [hho, this, closeCircuit]
        simpa using hclose
      · have hlt : cb.success_count + 1 < cfg.success_threshold := by omega
        obtain ⟨hst, hct⟩ := record_success_halfOpen_step cfg cb hho hlt
        exact ih _ hst (by rw [hct]; omega) (by omega)

/-- C7: the circuit-breaker state machine.  (1) From `closed` with a
zero failure counter, `failure_threshold ≥ 1` consecutive failures
(recorded at arbitrary instants) open the circuit.  (2) A success in
`closed` resets the failure counter and keeps the circuit closed, so
only consecutive failures count.  (3) While `open`, a call attempted at
least `timeout` seconds after the last failure first transitions the
breaker to `half_open` and is admitted (given a positive half-open call
budget).  (4) From `half_open` with a zero success counter,
`success_threshold ≥ 1` recorded successes close the circuit.  (5) Any
single failure in `half_open` reopens the circuit. -/
theorem C7_circuit_breaker_transitions (cfg : CBConfig) :
    (∀ (cb : CBState) (ts : List Rat), cb.state = .closed →
        cb.failure_count = 0 → ts.length = cfg.failure_threshold →
        1 ≤ cfg.failure_threshold →
        (applyFailures cfg ts cb).state = .opened) ∧
    (∀ cb : CBState, cb.state = .closed →
        (record_success cfg cb).failure_count = 0 ∧
        (record_success cfg cb).state = .closed) ∧
    (∀ (cb : CBState) (now t : Rat), cb.state = .opened →
        cb.last_failure_time = some t → cfg.timeout ≤ now - t →
        (tryHalfOpen cfg now cb).state = .halfOpen ∧
        (1 ≤ cfg.half_open_max_calls → ∀ outcome,
          (call_async cfg now outcome cb).1 = .executed outcome)) ∧
    (∀ cb : CBState, cb.state = .halfOpen → cb.success_count = 0 →
        1 ≤ cfg.success_threshold →
        ((record_success cfg)^[cfg.success_threshold] cb).state = .closed) ∧
    (∀ (cb : CBState) (now : Rat), cb.state = .halfOpen →
        (record_failure cfg now cb).state = .opened) := by
  refine ⟨?_, ?_, ?_, ?_, ?_⟩
  · intro cb ts hcl hc0 hlen h1
    refine failures_reach_threshold cfg ts cb hcl (by omega) ?_
    cases ts with
    | nil => simp at hlen; omega
    | cons _ _ => simp
  · intro cb hcl
    unfold record_success
    simp [hcl]
  · intro cb now t hop hlast htmo
    have hho : (tryHalfOpen cfg now cb).state = .halfOpen := by
      unfold tryHalfOpen
      simp [hop, hlast, htmo]
    refine ⟨hho, ?_⟩
    intro hmax outcome
    have hcalls : (tryHalfOpen cfg now cb).half_open_calls = 0 := by
      unfold tryHalfOpen
      simp [hop, hlast, htmo]
    have hnot : ¬ (cfg.half_open_max_calls ≤ (tryHalfOpen cfg now cb).half_open_calls) := by
      rw [hcalls]; omega
    unfold call_async
    simp only [hho]
    cases outcome <;> simp [hho, hnot]
  · intro cb hho hc0 h1
    exact successes_reach_threshold cfg cfg.success_threshold cb hho (by omega) h1
  · intro cb now hho
    unfold record_failure
    simp [hho, openCircuit]

/-- C7 witness: the transitions instantiated at
`failure_threshold = 2`, `success_threshold = 2`, `timeout = 60`:
two failures open a fresh breaker; a success in closed resets the
counter; an admitted call 90 seconds after the last failure goes
through half-open; two successes close a fresh half-open breaker; one
failure reopens it. -/
theorem C7_circuit_breaker_transitions_witness :
    (applyFailures { failure_threshold := 2 } [1, 2]
        { state := .closed }).state = .opened ∧
    ((record_success { failure_threshold := 2 }
        { state := .closed, failure_count := 1 }).failure_count = 0 ∧
      (record_success { failure_threshold := 2 }
        { state := .closed, failure_count := 1 }).state = .closed) ∧
    (tryHalfOpen { failure_threshold := 2 } 100
        { state := .opened, failure_count := 2,
          last_failure_time := some 10 }).state = .halfOpen ∧
    (call_async { failure_threshold := 2 } 100 true
        { state := .opened, failure_count := 2,
          last_failure_time := some 10 }).1 = .executed true ∧
    ((record_success { failure_threshold := 2 })^[2]
        { state := .halfOpen, last_failure_time := some 10 }).state = .closed ∧
    (record_failure { failure_threshold := 2 } 200
        { state := .halfOpen, last_failure_time := some 10 }).state = .opened := by
  refine ⟨?_, ?_, ?_, ?_, ?_, ?_⟩
  · exact (C7_circuit_breaker_transitions _).1 _ [1, 2] rfl rfl rfl (by norm_num)
  · exact (C7_circuit_breaker_transitions _).2.1 _ rfl
  · exact ((C7_circuit_breaker_transitions _).2.2.1 _ 100 10 rfl rfl
      (by norm_num)).1
  · exact ((C7_circuit_breaker_transitions _).2.2.1 _ 100 10 rfl rfl
      (by norm_num)).2 (by norm_num) true
  · exact (C7_circuit_breaker_transitions _).2.2.2.1 _ rfl rfl (by norm_num)
  · exact (C7_circuit_breaker_transitions _).2.2.2.2 _ 200 rfl

/-! ### C9: retry semantics -/

lemma should_retry_eq (p : RetryPolicy) (attempt : Nat) (e : String) :
    should_retry p attempt e =
      (decide (attempt < p.max_retries) && retryableError p e) := by
  unfold should_retry retryableError
  by_cases h1 : p.max_retries ≤ attempt
  · simp [h1, Nat.not_lt.mpr h1]
  · have h1' : attempt < p.max_retries := Nat.not_le.mp h1
    by_cases h2 : p.retryable_exception e
    · by_cases h3 : p.retryable_errors.isEmpty
      · simp [h1, h1', h2, h3]
      · simp only [Bool.not_eq_true] at h3
        by_cases h4 : p.retryable_errors.any
            (fun pat => pySubstr (strLower pat) (strLower e))
        · simp [h1, h1', h2, h3, h4]
        · simp only [Bool.not_eq_true] at h4
          simp [h1, h1', h2, h3, h4]
    · simp only [Bool.not_eq_true] at h2
      simp [h1, h1', h2]

lemma retryLoop_ok (p : RetryPolicy) (f : Nat → Except String PyValue)
    (v : PyValue) :
    ∀ (k s : Nat) (lastE : Option String), s + k ≤ p.max_retries →
      (∀ i, i < k → ∃ e, f (s + i) = .error e ∧ retryableError p e = true) →
      f (s + k) = .ok v →
      retryLoop p f lastE (List.range' s (p.max_retries + 1 - s)) = (.ok v, k + 1) := by
  intro k
  induction k with
  | zero =>
      intro s lastE hs _ hok
      have hm : p.max_retries + 1 - s = (p.max_retries - s) + 1 := by omega
      rw [hm, List.range'_succ]
      rw [Nat.add_zero] at hok
      simp [retryLoop, hok]
  | succ k ih =>
      intro s lastE hs herr hok
      have hm : p.max_retries + 1 - s = (p.max_retries - s) + 1 := by omega
      rw [hm, List.range'_succ]
      obtain ⟨e, he, hre⟩ := herr 0 (Nat.succ_pos k)
      rw [Nat.add_zero] at he
      have hsr : should_retry p s e = true := by
        rw [should_retry_eq]
        have hlt : s < p.max_retries := by omega
        simp [hlt, hre]
      have htail : p.max_retries - s = p.max_retries + 1 - (s + 1) := by omega
      have hIH := ih (s + 1) (some e) (by omega)
        (fun i hi => by
          have h2 := herr (i + 1) (by omega)
          have heq : s + 1 + i = s + (i + 1) := by omega
          rw [heq]; exact h2)
        (by
          have heq : s + 1 + k = s + (k + 1) := by omega
          rw [heq]; exact hok)
      rw [← htail] at hIH
      simp [retryLoop, he, hsr, hIH]

lemma retryLoop_all_fail (p : RetryPolicy) (f : Nat → Except String PyValue)
    (e : String) (hlast : f p.max_retries = .error e) :
    ∀ (m s : Nat) (lastE : Option String), s + m = p.max_retries + 1 → 1 ≤ m →
      (∀ i, s ≤ i → i ≤ p.max_retries →
        ∃ e', f i = .error e' ∧ retryableError p e' = true) →
      retryLoop p f lastE (List.range' s m) = (.error e, m) := by
  intro m
  induction m with
  | zero => intro s lastE _ h1 _; omega
  | succ m ih =>
      intro s lastE hsum _ hall
      rw [List.range'_succ]
      by_cases hm : m = 0
      · subst hm
        have hs : s = p.max_retries := by omega
        subst hs
        have hsr : should_retry p p.max_retries e = false := by
          rw [should_retry_eq]; simp
        simp [retryLoop, hlast, hsr]
      · obtain ⟨e0, he0, hre0⟩ := hall s (le_refl s) (by omega)
        have hsr : should_retry p s e0 = true := by
          rw [should_retry_eq]
          have hlt : s < p.max_retries := by omega
          simp [hlt, hre0]
        have hIH := ih (s + 1) (some e0) (by omega) (by omega)
          (fun i hi1 hi2 => hall i (by omega) hi2)
        simp [retryLoop, he0, hsr, hIH]

lemma retryLoop_nonretryable (p : RetryPolicy) (f : Nat → Except String PyValue)
    (e : String) :
    ∀ (k s : Nat) (lastE : Option String), s + k ≤ p.max_retries →
      (∀ i, i < k → ∃ e', f (s + i) = .error e' ∧ retryableError p e' = true) →
      f (s + k) = .error e → retryableError p e = false →
      retryLoop p f lastE (List.range' s (p.max_retries + 1 - s)) =
        (.error e, k + 1) := by
  intro k
  induction k with
  | zero =>
      intro s lastE hs _ herr hnre
      have hm : p.max_retries + 1 - s = (p.max_retries - s) + 1 := by omega
      rw [hm, List.range'_succ]
      rw [Nat.add_zero] at herr
      have hsr : should_retry p s e = false := by
        rw [should_retry_eq, hnre]
        simp
      simp [retryLoop, herr, hsr]
  | succ k ih =>
      intro s lastE hs hpre herr hnre
      have hm : p.max_retries + 1 - s = (p.max_retries - s) + 1 := by omega
      rw [hm, List.range'_succ]
      obtain ⟨e0, he0, hre0⟩ := hpre 0 (Nat.succ_pos k)
      rw [Nat.add_zero] at he0
      have hsr : should_retry p s e0 = true := by
        rw [should_retry_eq]
        have hlt : s < p.max_retries := by omega
        simp [hlt, hre0]
      have htail : p.max_retries - s = p.max_retries + 1 - (s + 1) := by omega
      have hIH := ih (s + 1) (some e0) (by omega)
        (fun i hi => by
          have h2 := hpre (i + 1) (by omega)
          have heq : s + 1 + i = s + (i + 1) := by omega
          rw [heq]; exact h2)
        (by
          have heq : s + 1 + k = s + (k + 1) := by omega
          rw [heq]; exact herr)
        hnre
      rw [← htail] at hIH
      simp [retryLoop, he0, hsr, hIH]

/-- C9: `execute_with_retry`.  (1) If the wrapped function fails `k ≤
max_retries` times with retryable errors and then succeeds, the
successful value is returned after exactly `k + 1` invocations.  (2) If
every one of the `max_retries + 1` attempts raises a retryable error,
the last exception is re-raised after exactly `max_retries + 1`
invocations.  (3) A non-retryable exception is re-raised immediately:
after `k` retryable failures and a non-retryable one, exactly `k + 1`
invocations occurred. -/
theorem C9_retry_semantics (p : RetryPolicy) (f : Nat → Except String PyValue) :
    (∀ k v, k ≤ p.max_retries →
      (∀ i, i < k → ∃ e, f i = .error e ∧ retryableError p e = true) →
      f k = .ok v → execute_with_retry p f = (.ok v, k + 1)) ∧
    (∀ e, (∀ i, i ≤ p.max_retries →
        ∃ e', f i = .error e' ∧ retryableError p e' = true) →
      f p.max_retries = .error e →
      execute_with_retry p f = (.error e, p.max_retries + 1)) ∧
    (∀ k e, k ≤ p.max_retries →
      (∀ i, i < k → ∃ e', f i = .error e' ∧ retryableError p e' = true) →
      f k = .error e → retryableError p e = false →
      execute_with_retry p f = (.error e, k + 1)) := by
  refine ⟨?_, ?_, ?_⟩
  · intro k v hk herr hok
    unfold execute_with_retry
    rw [List.range_eq_range']
    have h0 : p.max_retries + 1 = p.max_retries + 1 - 0 := rfl
    rw [h0]
    exact retryLoop_ok p f v k 0 none (by omega)
      (fun i hi => by simpa using herr i hi) (by simpa using hok)
  · intro e hall hlast
    unfold execute_with_retry
    rw [List.range_eq_range']
    exact retryLoop_all_fail p f e hlast (p.max_retries + 1) 0 none (by omega)
      (by omega) (fun i _ hi2 => hall i hi2)
  · intro k e hk herr hke hnre
    unfold execute_with_retry
    rw [List.range_eq_range']
    have h0 : p.max_retries + 1 = p.max_retries + 1 - 0 := rfl
    rw [h0]
    exact retryLoop_nonretryable p f e k 0 none (by omega)
      (fun i hi => by simpa using herr i hi) (by simpa using hke) hnre

/-- C9 witness: with `max_retries = 3` and an agent failing twice with
a retryable error before succeeding, the handler returns the third
call's value after exactly three invocations — the spec's scenario. -/
theorem C9_retry_semantics_witness :
    execute_with_retry c9Policy c9Outcomes = (.ok (.vstr "done"), 3) :=
  (C9_retry_semantics c9Policy c9Outcomes).1 2 (.vstr "done") (by decide)
    (fun i hi => ⟨"transient error", by simp [c9Outcomes, hi], rfl⟩) rfl

/-! ### C6: selection tie-breaking -/

lemma pyMaxByScore_spec : ∀ (t : List AgentScore) (h : AgentScore),
    (∀ s ∈ h :: t, s.total_score ≤ (pyMaxByScore h t).total_score) ∧
    ∃ pre post, h :: t = pre ++ (pyMaxByScore h t) :: post ∧
      ∀ x ∈ pre, x.total_score < (pyMaxByScore h t).total_score := by
  intro t
  induction t with
  | nil =>
      intro h
      refine ⟨?_, [], [], rfl, ?_⟩
      · intro s hs
        simp at hs
        simp [hs, pyMaxByScore]
      · intro x hx
        simp at hx
  | cons s rest ih =>
      intro h
      have hfold : pyMaxByScore h (s :: rest) =
          pyMaxByScore (if s.total_score > h.total_score then s else h) rest := by
        unfold pyMaxByScore
        rw [List.foldl_cons]
      set h' := if s.total_score > h.total_score then s else h with hh'
      obtain ⟨ub, pre', post', hdec, hlt⟩ := ih h'
      set r := pyMaxByScore h' rest with hr
      have hhle : h.total_score ≤ h'.total_score := by
        rw [hh']
        by_cases hc : s.total_score > h.total_score
        · simp [hc]; exact le_of_lt hc
        · simp [hc]
      have hsle : s.total_score ≤ h'.total_score := by
        rw [hh']
        by_cases hc : s.total_score > h.total_score
        · simp [hc]
        · simp [hc]; exact le_of_not_lt hc
      constructor
      · intro x hx
        rw [hfold]
        simp only [List.mem_cons] at hx
        rcases hx with rfl | rfl | hx
        · exact le_trans hhle (ub h' (by simp))
        · exact le_trans hsle (ub h' (by simp))
        · exact ub x (by simp [hx])
      · rw [hfold]
        cases pre' with
        | nil =>
            simp only [List.nil_append, List.cons.injEq] at hdec
            by_cases hc : s.total_score > h.total_score
            · refine ⟨[h], post', ?_, ?_⟩
              · have hh's : h' = s := by simp [hh', hc]
                simp only [List.cons_append, List.nil_append, List.cons.injEq]
                exact ⟨trivial, hh's ▸ hdec.1, hdec.2⟩
              · intro x hx
                simp only [List.mem_singleton] at hx
                rw [hx]
                calc h.total_score < s.total_score := hc
                  _ ≤ h'.total_score := hsle
                  _ ≤ r.total_score := ub h' (by simp)
            · refine ⟨[], s :: rest, ?_, ?_⟩
              · have hh'h : h' = h := by simp [hh', hc]
                simp only [List.nil_append, List.cons.injEq]
                exact ⟨hh'h ▸ hdec.1, trivial⟩
              · intro x hx
                simp at hx
        | cons q pre'' =>
            have hq : q = h' ∧ rest = pre'' ++ r :: post' := by
              have hthis := hdec
              rw [List.cons_append] at hthis
              exact ⟨((List.cons.injEq _ _ _ _).mp hthis).1.symm,
                     ((List.cons.injEq _ _ _ _).mp hthis).2⟩
            have hh'lt : h'.total_score < r.total_score := by
              have hq' := hlt q (List.mem_cons_self q pre'')
              rwa [hq.1] at hq'
            refine ⟨h :: s :: pre'', post', ?_, ?_⟩
            · rw [hq.2]
              simp
            · intro x hx
              simp only [List.mem_cons] at hx
              rcases hx with rfl | rfl | hx
              · exact lt_of_le_of_lt hhle hh'lt
              · exact lt_of_le_of_lt hsle hh'lt
              · exact hlt x (by simp [hx])

/-- C6 amended: `select_for_step` returns the first candidate (in
enumeration order) whose total score is maximal: every candidate scores
at most the selected one, and every candidate listed before it scores
strictly less. -/
theorem C6_amended_first_maximal_candidate (scores : List AgentScore)
    (hne : scores ≠ []) :
    ∃ best pre post,
      select_for_step scores = some best.agent_id ∧
      scores = pre ++ best :: post ∧
      (∀ s ∈ scores, s.total_score ≤ best.total_score) ∧
      (∀ x ∈ pre, x.total_score < best.total_score) := by
  cases scores with
  | nil => exact absurd rfl hne
  | cons h t =>
      obtain ⟨ub, pre, post, hdec, hlt⟩ := pyMaxByScore_spec t h
      exact ⟨pyMaxByScore h t, pre, post, rfl, hdec, ub, hlt⟩

/-- C6 witness: the amended claim at the tied candidate list
`[b: 1, a: 1]`. -/
theorem C6_amended_first_maximal_candidate_witness :
    ∃ best pre post,
      select_for_step
          [ { agent_id := "b", total_score := 1 },
            { agent_id := "a", total_score := 1 } ] = some best.agent_id ∧
      [ ({ agent_id := "b", total_score := 1 } : AgentScore),
        { agent_id := "a", total_score := 1 } ] = pre ++ best :: post ∧
      (∀ s ∈ [ ({ agent_id := "b", total_score := 1 } : AgentScore),
               { agent_id := "a", total_score := 1 } ],
          s.total_score ≤ best.total_score) ∧
      (∀ x ∈ pre, x.total_score < best.total_score) :=
  C6_amended_first_maximal_candidate _ (by simp)

/-! ### C4: condition operators on an absent field -/

/-- C4 amended: for every simple condition whose (non-empty) field path
resolves to the absent value, evaluation yields: `exists` → false,
`not_exists` → true, `equals` → whether the literal is itself absent,
`not_equals` → whether it is not, `contains` → false, `not_contains` →
true, `in` → membership of the absent value in the literal list (false
for a non-list literal), `not_in` → its negation (true for a non-list
literal), `regex` → false whenever the pattern compiles; and the four
order comparisons raise `TypeError`. -/
theorem C4_amended_absent_field_operators
    (rc : PyValue → Except String (PyValue → Bool))
    (cond : SimpleCondition) (state : List (String × PyValue))
    (f : String) (hf : cond.field = some f) (hne : ¬ f = "")
    (habs : getFieldValue f state = .vnone) :
    (cond.operator = some "exists" →
      evalSimpleCondition rc cond state = .ok false) ∧
    (cond.operator = some "not_exists" →
      evalSimpleCondition rc cond state = .ok true) ∧
    (cond.operator = some "equals" →
      evalSimpleCondition rc cond state = .ok (pyEq .vnone cond.value)) ∧
    (cond.operator = some "not_equals" →
      evalSimpleCondition rc cond state = .ok (!pyEq .vnone cond.value)) ∧
    (cond.operator = some "greater_than" →
      evalSimpleCondition rc cond state = .error "TypeError") ∧
    (cond.operator = some "less_than" →
      evalSimpleCondition rc cond state = .error "TypeError") ∧
    (cond.operator = some "greater_than_or_equal" →
      evalSimpleCondition rc cond state = .error "TypeError") ∧
    (cond.operator = some "less_than_or_equal" →
      evalSimpleCondition rc cond state = .error "TypeError") ∧
    (cond.operator = some "contains" →
      evalSimpleCondition rc cond state = .ok false) ∧
    (cond.operator = some "not_contains" →
      evalSimpleCondition rc cond state = .ok true) ∧
    (cond.operator = some "in" →
      evalSimpleCondition rc cond state =
        .ok (match cond.value with
             | .vlist l => l.any (fun e => pyEq e .vnone)
             | _ => false)) ∧
    (cond.operator = some "not_in" →
      evalSimpleCondition rc cond state =
        .ok (match cond.value with
             | .vlist l => !(l.any (fun e => pyEq e .vnone))
             | _ => true)) ∧
    (cond.operator = some "regex" → ∀ m, rc cond.value = .ok m →
      evalSimpleCondition rc cond state = .ok false) := by
  have hcmp : ∀ w, pyCmp PyValue.vnone w = .error "TypeError" := by
    intro w; cases w <;> rfl
  obtain ⟨cf, cop, cv⟩ := cond
  have hf' : cf = some f := hf
  subst hf'
  have hred : evalSimpleCondition rc ⟨some f, cop, cv⟩ state
      = applyConditionOp rc cop (getFieldValue f state) cv := by
    simp [evalSimpleCondition, hne]
  rw [habs] at hred
  refine ⟨?_, ?_, ?_, ?_, ?_, ?_, ?_, ?_, ?_, ?_, ?_, ?_, ?_⟩ <;>
    intro hop
  · have hop' : cop = some "exists" := hop
    subst hop'
    rw [hred]
    simp [applyConditionOp, pyEq]
  · have hop' : cop = some "not_exists" := hop
    subst hop'
    rw [hred]
    simp [applyConditionOp, pyEq]
  · have hop' : cop = some "equals" := hop
    subst hop'
    rw [hred]
    simp [applyConditionOp]
  · have hop' : cop = some "not_equals" := hop
    subst hop'
    rw [hred]
    simp [applyConditionOp]
  · have hop' : cop = some "greater_than" := hop
    subst hop'
    rw [hred]
    simp [applyConditionOp, hcmp]
    rfl
  · have hop' : cop = some "less_than" := hop
    subst hop'
    rw [hred]
    simp [applyConditionOp, hcmp]
    rfl
  · have hop' : cop = some "greater_than_or_equal" := hop
    subst hop'
    rw [hred]
    simp [applyConditionOp, hcmp]
    rfl
  · have hop' : cop = some "less_than_or_equal" := hop
    subst hop'
    rw [hred]
    simp [applyConditionOp, hcmp]
    rfl
  · have hop' : cop = some "contains" := hop
    subst hop'
    rw [hred]
    simp [applyConditionOp, isListOrStr]
  · have hop' : cop = some "not_contains" := hop
    subst hop'
    rw [hred]
    simp [applyConditionOp, isListOrStr]
  · have hop' : cop = some "in" := hop
    subst hop'
    rw [hred]
    cases cv <;> simp [applyConditionOp]
  · have hop' : cop = some "not_in" := hop
    subst hop'
    rw [hred]
    cases cv <;> simp [applyConditionOp]
  · intro m hm
    have hop' : cop = some "regex" := hop
    subst hop'
    simp only at hm
    rw [hred]
    simp [applyConditionOp, hm, pyTruthy]

/-- C4 witness: the amended behaviour at the concrete condition
`{field: "x", operator: "exists"}` (and `not_exists`) over the empty
state. -/
theorem C4_amended_absent_field_operators_witness :
    evalSimpleCondition noRegexCompile
        { field := some "x", operator := some "exists", value := .vnone } []
      = .ok false ∧
    evalSimpleCondition noRegexCompile
        { field := some "x", operator := some "not_exists", value := .vnone } []
      = .ok true :=
  ⟨(C4_amended_absent_field_operators noRegexCompile _ [] "x" rfl
      (by decide) rfl).1 rfl,
   (C4_amended_absent_field_operators noRegexCompile _ [] "x" rfl
      (by decide) rfl).2.1 rfl⟩

/-! ### C5: state-store auto-versioning -/

lemma save_state_auto (store : StateStoreData) (wid : String) (st : PyValue) :
    save_state store wid st none =
      (((alookup store wid).getD ⟨[], 0⟩).current_version + 1,
        aset store wid
          ⟨aset ((alookup store wid).getD ⟨[], 0⟩).versions
              (((alookup store wid).getD ⟨[], 0⟩).current_version + 1) st,
            ((alookup store wid).getD ⟨[], 0⟩).current_version + 1⟩) := by
  unfold save_state
  rfl

lemma keys_aset {κ α : Type} [DecidableEq κ] (l : List (κ × α)) (k k' : κ) (v : α)
    (h : k' ∈ (aset l k v).map Prod.fst) : k' = k ∨ k' ∈ l.map Prod.fst := by
  rw [List.mem_map] at h
  obtain ⟨p, hp, hfst⟩ := h
  rcases mem_aset hp with hpeq | hpmem
  · subst hpeq
    exact Or.inl hfst.symm
  · exact Or.inr (List.mem_map.mpr ⟨p, hpmem, hfst⟩)

lemma autoSaves_master (wid : String) : ∀ (l : List PyValue) (store : StateStoreData),
    (∀ k ∈ (((alookup store wid).getD ⟨[], 0⟩).versions).map Prod.fst,
        k ≤ ((alookup store wid).getD ⟨[], 0⟩).current_version) →
    ((autoSaves wid l store).1.length = l.length) ∧
    (∀ j, j < l.length → (autoSaves wid l store).1[j]? =
        some (((alookup store wid).getD ⟨[], 0⟩).current_version + 1 + (j : Int))) ∧
    ((alookup (autoSaves wid l store).2 wid).getD ⟨[], 0⟩).current_version =
        ((alookup store wid).getD ⟨[], 0⟩).current_version + (l.length : Int) ∧
    (∀ i, (h : i < l.length) →
        alookup (((alookup (autoSaves wid l store).2 wid).getD ⟨[], 0⟩).versions)
            (((alookup store wid).getD ⟨[], 0⟩).current_version + 1 + (i : Int)) =
          some (l.get ⟨i, h⟩)) ∧
    (∀ k : Int, k ≤ ((alookup store wid).getD ⟨[], 0⟩).current_version →
        alookup (((alookup (autoSaves wid l store).2 wid).getD ⟨[], 0⟩).versions) k =
          alookup (((alookup store wid).getD ⟨[], 0⟩).versions) k) := by
  intro l
  induction l with
  | nil =>
      intro store _
      refine ⟨rfl, ?_, by simp [autoSaves], ?_, ?_⟩
      · intro j hj; simp at hj
      · intro i h; simp at h
      · intro k _; rfl
  | cons st rest ih =>
      intro store hmax
      set e0 := (alookup store wid).getD ⟨[], 0⟩ with he0
      set c := e0.current_version with hc
      have hsave : save_state store wid st none =
          (c + 1, aset store wid ⟨aset e0.versions (c + 1) st, c + 1⟩) :=
        save_state_auto store wid st
      set store' := aset store wid ⟨aset e0.versions (c + 1) st, c + 1⟩ with hstore'
      have hlk' : alookup store' wid = some ⟨aset e0.versions (c + 1) st, c + 1⟩ :=
        alookup_aset_self store wid _
      have hunfold : autoSaves wid (st :: rest) store =
          ((c + 1) :: (autoSaves wid rest store').1, (autoSaves wid rest store').2) := rfl
      have hmax' : ∀ k ∈ (((alookup store' wid).getD ⟨[], 0⟩).versions).map Prod.fst,
          k ≤ ((alookup store' wid).getD ⟨[], 0⟩).current_version := by
        rw [hlk']
        intro k hk
        simp only [Option.getD_some] at hk ⊢
        rcases keys_aset _ _ _ _ hk with hkeq | hkmem
        · omega
        · have := hmax k hkmem
          omega
      obtain ⟨ihlen, ihvers, ihcur, ihget, ihold⟩ := ih store' hmax'
      rw [hlk'] at ihvers ihcur ihget ihold
      simp only [Option.getD_some] at ihvers ihcur ihget ihold
      refine ⟨?_, ?_, ?_, ?_, ?_⟩
      · rw [hunfold]
        simp [ihlen]
      · intro j hj
        rw [hunfold]
        cases j with
        | zero => simp
        | succ j' =>
            simp only [List.getElem?_cons_succ]
            rw [ihvers j' (by simpa using Nat.lt_of_succ_lt_succ hj)]
            congr 1
            push_cast
            ring
      · rw [hunfold]
        rw [ihcur]
        simp only [List.length_cons]
        push_cast
        ring
      · intro i h
        rw [hunfold]
        cases i with
        | zero =>
            have hz := ihold (c + 1) (by omega)
            simp only at hz
            rw [show c + 1 + ((0 : Nat) : Int) = c + 1 by push_cast; ring]
            rw [hz]
            rw [alookup_aset_self]
            rfl
        | succ i' =>
            have hi' : i' < rest.length := by simpa using Nat.lt_of_succ_lt_succ h
            have hg := ihget i' hi'
            rw [show c + 1 + ((i' + 1 : Nat) : Int) = c + 1 + 1 + (i' : Int) by
              push_cast; ring]
            rw [hg]
            rfl
      · intro k hk
        rw [hunfold]
        have ho := ihold k (by omega)
        rw [ho]
        exact alookup_aset_ne _ _ _ _ (by omega)

/-- C5 amended: for a sequence of auto-versioned saves on a fresh
workflow id, the returned versions are `1, 2, …, n` (hence strictly
increasing), `get_state(id, vᵢ)` returns the i-th saved state, and no
stored version is overwritten.  Auto-versioning is
`current_version + 1` — the version of the most recent save plus one —
which coincides with `prior_max + 1` only while no explicit
lower-version save intervenes (see the counterexample). -/
theorem C5_amended_auto_version_sequence (wid : String) (l : List PyValue) :
    ((autoSaves wid l []).1.length = l.length) ∧
    (∀ j, j < l.length →
      (autoSaves wid l []).1[j]? = some ((j : Int) + 1)) ∧
    (∀ j k a b, j < k → k < l.length →
      (autoSaves wid l []).1[j]? = some a →
      (autoSaves wid l []).1[k]? = some b → a < b) ∧
    (∀ i, (h : i < l.length) →
      get_state (autoSaves wid l []).2 wid (some ((i : Int) + 1)) =
        some (l.get ⟨i, h⟩)) := by
  obtain ⟨hlen, hvers, hcur, hget, _⟩ :=
    autoSaves_master wid l [] (by intro k hk; simp [alookup] at hk)
  simp only [alookup, Option.getD_none] at hvers hcur hget
  have hvers' : ∀ j, j < l.length →
      (autoSaves wid l []).1[j]? = some ((j : Int) + 1) := by
    intro j hj
    rw [hvers j hj]
    congr 1
    ring
  refine ⟨hlen, hvers', ?_, ?_⟩
  · intro j k a b hjk hk ha hb
    rw [hvers' j (by omega)] at ha
    rw [hvers' k hk] at hb
    have ha' : a = (j : Int) + 1 := by injection ha with h; omega
    have hb' : b = (k : Int) + 1 := by injection hb with h; omega
    subst ha'; subst hb'
    have : (j : Int) < (k : Int) := by exact_mod_cast hjk
    omega
  · intro i h
    have hg := hget i h
    unfold get_state
    rcases hfin : alookup (autoSaves wid l []).2 wid with _ | entryF
    · rw [hfin] at hg
      simp only [Option.getD_none] at hg
      simp [alookup] at hg
    · rw [hfin] at hg
      simp only [Option.getD_some] at hg
      simp only [Option.getD_some]
      rw [show (0 : Int) + 1 + (i : Int) = (i : Int) + 1 by ring] at hg
      exact hg

/-- C5 witness: two auto saves on a fresh store return versions 1 and 2
and both states are retrievable. -/
theorem C5_amended_auto_version_sequence_witness :
    (autoSaves "w" [.vstr "a", .vstr "b"] []).1.length = 2 ∧
    (autoSaves "w" [.vstr "a", .vstr "b"] []).1[1]? = some 2 ∧
    get_state (autoSaves "w" [.vstr "a", .vstr "b"] []).2 "w" (some 1) =
      some (.vstr "a") :=
  ⟨(C5_amended_auto_version_sequence "w" [.vstr "a", .vstr "b"]).1,
   by
     have := (C5_amended_auto_version_sequence "w" [.vstr "a", .vstr "b"]).2.1 1
       (by norm_num)
     simpa using this,
   by
     have := (C5_amended_auto_version_sequence "w"
       [.vstr "a", .vstr "b"]).2.2.2 0 (by norm_num)
     simpa using this⟩

/-! ### C3: execute with continue_on_error -/

lemma mem_aset_self {κ α : Type} [DecidableEq κ] (l : List (κ × α)) (k : κ) (v : α) :
    (k, v) ∈ aset l k v := by
  induction l with
  | nil => simp [aset]
  | cons q rest ih =>
      obtain ⟨k', w⟩ := q
      by_cases hk : k' = k
      · subst hk; simp [aset]
      · simp [aset, hk]
        right
        exact ih

lemma mem_aset_of_ne {κ α : Type} [DecidableEq κ] {l : List (κ × α)} {k k' : κ}
    {v w : α} (h : (k', w) ∈ l) (hne : k' ≠ k) : (k', w) ∈ aset l k v := by
  induction l with
  | nil => simp at h
  | cons q rest ih =>
      obtain ⟨k'', w''⟩ := q
      rcases List.mem_cons.mp h with heq | htail
      · have hk'' : ¬ (k'' = k) := by
          intro hc
          apply hne
          injection heq with h1 _
          rw [h1, hc]
        rw [show aset ((k'', w'') :: rest) k v = (k'', w'') :: aset rest k v from by
          simp [aset, hk'']]
        exact List.mem_cons.mpr (Or.inl heq)
      · by_cases hk : k'' = k
        · subst hk
          rw [show aset ((k'', w'') :: rest) k'' v = (k'', v) :: rest from by
            simp [aset]]
          exact List.mem_cons_of_mem _ htail
        · rw [show aset ((k'', w'') :: rest) k v = (k'', w'') :: aset rest k v from by
            simp [aset, hk]]
          exact List.mem_cons_of_mem _ (ih htail)

lemma findStep_id {steps : List WorkflowStep} {sid : String} {st : WorkflowStep}
    (h : findStep steps sid = some st) : st.step_id = sid := by
  have := List.find?_some h
  simpa using this

lemma execStepsSeq_cons_none (rc : PyValue → Except String (PyValue → Bool))
    (outcomes : String → Except String PyValue) (steps : List WorkflowStep)
    (co : Bool) (sid0 : String) (rest : List String) (ctx : ExecCtx)
    (results : List (String × PyValue)) (hfind : findStep steps sid0 = none) :
    execStepsSeq rc outcomes steps co (sid0 :: rest) ctx results =
      execStepsSeq rc outcomes steps co rest ctx results := by
  conv_lhs => rw [execStepsSeq]
  rw [hfind]

lemma execStepsSeq_cons_some (rc : PyValue → Except String (PyValue → Bool))
    (outcomes : String → Except String PyValue) (steps : List WorkflowStep)
    (co : Bool) (sid0 : String) (rest : List String) (ctx : ExecCtx)
    (results : List (String × PyValue)) (st : WorkflowStep)
    (hfind : findStep steps sid0 = some st) :
    execStepsSeq rc outcomes steps co (sid0 :: rest) ctx results =
      (match runStepBody rc outcomes st ctx with
       | (.skipped, ctx') => execStepsSeq rc outcomes steps co rest ctx' results
       | (.succeeded v, ctx') =>
           execStepsSeq rc outcomes steps co rest ctx' (aset results sid0 v)
       | (.failed e, ctx') =>
           let ctx'' := { ctx' with errors := ctx'.errors ++ [(sid0, e)] }
           if co then execStepsSeq rc outcomes steps co rest ctx'' results
           else (ctx'', results, some e)) := by
  conv_lhs => rw [execStepsSeq]
  rw [hfind]

lemma runStepBody_errors (rc : PyValue → Except String (PyValue → Bool))
    (outcomes : String → Except String PyValue) (st : WorkflowStep) (ctx : ExecCtx) :
    (runStepBody rc outcomes st ctx).2.errors = ctx.errors := by
  unfold runStepBody
  rcases shouldExecuteStep rc st ctx.state with e | b
  · rfl
  · cases b
    · rfl
    · rcases outcomes st.step_id with e | v
      · rfl
      · rfl

lemma runStepBody_results (rc : PyValue → Except String (PyValue → Bool))
    (outcomes : String → Except String PyValue) (st : WorkflowStep) (ctx : ExecCtx)
    {sid : String} {v : PyValue} (hmem : (sid, v) ∈ ctx.step_results)
    (hv : outcomes sid = .ok v) :
    (sid, v) ∈ (runStepBody rc outcomes st ctx).2.step_results := by
  unfold runStepBody
  rcases shouldExecuteStep rc st ctx.state with e | b
  · exact hmem
  · cases b
    · exact hmem
    · rcases hout : outcomes st.step_id with e | w
      · exact hmem
      · simp only
        by_cases hid : sid = st.step_id
        · subst hid
          rw [hv] at hout
          injection hout with hw
          subst hw
          exact mem_aset_self _ _ _
        · exact mem_aset_of_ne hmem hid

lemma execStepsSeq_cont (rc : PyValue → Except String (PyValue → Bool))
    (outcomes : String → Except String PyValue) (steps : List WorkflowStep) :
    ∀ (order : List String) (ctx : ExecCtx) (results : List (String × PyValue)),
      (execStepsSeq rc outcomes steps true order ctx results).2.2 = none ∧
      (∀ p ∈ ctx.errors,
        p ∈ (execStepsSeq rc outcomes steps true order ctx results).1.errors) ∧
      (∀ sid v, outcomes sid = .ok v → (sid, v) ∈ ctx.step_results →
        (sid, v) ∈ (execStepsSeq rc outcomes steps true order ctx results).1.step_results) := by
  intro order
  induction order with
  | nil => intro ctx results; exact ⟨rfl, fun p hp => hp, fun sid v _ h => h⟩
  | cons sid0 rest ih =>
      intro ctx results
      rcases hfind : findStep steps sid0 with _ | st
      · rw [execStepsSeq_cons_none rc outcomes steps true sid0 rest ctx results hfind]
        exact ih ctx results
      · rw [execStepsSeq_cons_some rc outcomes steps true sid0 rest ctx results st hfind]
        rcases hrun : runStepBody rc outcomes st ctx with ⟨outcome, ctx'⟩
        have herr' : ctx'.errors = ctx.errors := by
          have hh := runStepBody_errors rc outcomes st ctx
          rw [hrun] at hh
          exact hh
        have hres' : ∀ sid v, outcomes sid = .ok v → (sid, v) ∈ ctx.step_results →
            (sid, v) ∈ ctx'.step_results := by
          intro sid v hv hm
          have hh := runStepBody_results rc outcomes st ctx hm hv
          rw [hrun] at hh
          exact hh
        cases outcome with
        | skipped =>
            refine ⟨(ih ctx' results).1, ?_, ?_⟩
            · intro p hp
              exact (ih ctx' results).2.1 p (herr' ▸ hp)
            · intro sid v hv hm
              exact (ih ctx' results).2.2 sid v hv (hres' sid v hv hm)
        | succeeded v0 =>
            refine ⟨(ih ctx' _).1, ?_, ?_⟩
            · intro p hp
              exact (ih ctx' _).2.1 p (herr' ▸ hp)
            · intro sid v hv hm
              exact (ih ctx' _).2.2 sid v hv (hres' sid v hv hm)
        | failed e =>
            refine ⟨(ih _ results).1, ?_, ?_⟩
            · intro p hp
              refine (ih _ results).2.1 p ?_
              simp only [herr']
              exact List.mem_append_left _ hp
            · intro sid v hv hm
              exact (ih _ results).2.2 sid v hv (hres' sid v hv hm)

lemma execStepsSeq_step (rc : PyValue → Except String (PyValue → Bool))
    (outcomes : String → Except String PyValue) (steps : List WorkflowStep) :
    ∀ (order : List String) (ctx : ExecCtx) (results : List (String × PyValue)),
      ∀ sid ∈ order, ∀ st, findStep steps sid = some st → st.condition = none →
        (∀ e, outcomes sid = .error e →
          (sid, e) ∈ (execStepsSeq rc outcomes steps true order ctx results).1.errors) ∧
        (∀ v, outcomes sid = .ok v →
          (sid, v) ∈ (execStepsSeq rc outcomes steps true order ctx results).1.step_results) := by
  intro order
  induction order with
  | nil => intro ctx results sid hsid; simp at hsid
  | cons sid0 rest ih =>
      intro ctx results sid hsid st hfind hcond
      rcases List.mem_cons.mp hsid with rfl | htail
      · rw [execStepsSeq_cons_some rc outcomes steps true sid rest ctx results st hfind]
        have hid : st.step_id = sid := findStep_id hfind
        have hshould : shouldExecuteStep rc st ctx.state = .ok true := by
          unfold shouldExecuteStep
          rw [hcond]
        constructor
        · intro e he
          have hrun : runStepBody rc outcomes st ctx = (.failed e, ctx) := by
            unfold runStepBody
            rw [hshould, hid, he]
          rw [hrun]
          apply (execStepsSeq_cont rc outcomes steps rest _ results).2.1
          simp
        · intro v hv
          have hrun : runStepBody rc outcomes st ctx =
              (.succeeded v,
                { ctx with
                  step_results := aset ctx.step_results st.step_id v,
                  state := match st.output_key with
                           | some k => aset ctx.state k v
                           | none => ctx.state }) := by
            unfold runStepBody
            rw [hshould, hid, hv]
          rw [hrun]
          apply (execStepsSeq_cont rc outcomes steps rest _ _).2.2 sid v hv
          simp only
          rw [hid]
          exact mem_aset_self _ _ _
      · rcases hfind0 : findStep steps sid0 with _ | st0
        · rw [execStepsSeq_cons_none rc outcomes steps true sid0 rest ctx results hfind0]
          exact ih ctx results sid htail st hfind hcond
        · rw [execStepsSeq_cons_some rc outcomes steps true sid0 rest ctx results st0 hfind0]
          rcases hrun : runStepBody rc outcomes st0 ctx with ⟨outcome, ctx'⟩
          cases outcome with
          | skipped => exact ih ctx' results sid htail st hfind hcond
          | succeeded v0 => exact ih ctx' _ sid htail st hfind hcond
          | failed e0 => exact ih _ results sid htail st hfind hcond

lemma execGroup_cons_none (rc : PyValue → Except String (PyValue → Bool))
    (outcomes : String → Except String PyValue) (steps : List WorkflowStep)
    (sid0 : String) (rest : List String) (ctx : ExecCtx)
    (results : List (String × PyValue)) (hfind : findStep steps sid0 = none) :
    execGroup rc outcomes steps (sid0 :: rest) ctx results =
      execGroup rc outcomes steps rest ctx results := by
  conv_lhs => rw [execGroup]
  rw [hfind]

lemma execGroup_cons_some (rc : PyValue → Except String (PyValue → Bool))
    (outcomes : String → Except String PyValue) (steps : List WorkflowStep)
    (sid0 : String) (rest : List String) (ctx : ExecCtx)
    (results : List (String × PyValue)) (st : WorkflowStep)
    (hfind : findStep steps sid0 = some st) :
    execGroup rc outcomes steps (sid0 :: rest) ctx results =
      (match runStepBody rc outcomes st ctx with
       | (.skipped, ctx') => execGroup rc outcomes steps rest ctx' results
       | (.succeeded v, ctx') =>
           execGroup rc outcomes steps rest ctx'
             (if pyTruthy v then aset results sid0 v else results)
       | (.failed e, ctx') =>
           let ctx'' := { ctx' with errors := ctx'.errors ++ [(sid0, e)] }
           ((execGroup rc outcomes steps rest ctx'' results).1,
            (execGroup rc outcomes steps rest ctx'' results).2.1,
            (sid0, e) :: (execGroup rc outcomes steps rest ctx'' results).2.2)) := by
  conv_lhs => rw [execGroup]
  rw [hfind]

lemma execGroup_cont (rc : PyValue → Except String (PyValue → Bool))
    (outcomes : String → Except String PyValue) (steps : List WorkflowStep) :
    ∀ (g : List String) (ctx : ExecCtx) (results : List (String × PyValue)),
      (∀ p ∈ ctx.errors, p ∈ (execGroup rc outcomes steps g ctx results).1.errors) ∧
      (∀ sid v, outcomes sid = .ok v → (sid, v) ∈ ctx.step_results →
        (sid, v) ∈ (execGroup rc outcomes steps g ctx results).1.step_results) := by
  intro g
  induction g with
  | nil => intro ctx results; exact ⟨fun p hp => hp, fun sid v _ h => h⟩
  | cons sid0 rest ih =>
      intro ctx results
      rcases hfind : findStep steps sid0 with _ | st
      · rw [execGroup_cons_none rc outcomes steps sid0 rest ctx results hfind]
        exact ih ctx results
      · rw [execGroup_cons_some rc outcomes steps sid0 rest ctx results st hfind]
        rcases hrun : runStepBody rc outcomes st ctx with ⟨outcome, ctx'⟩
        have herr' : ctx'.errors = ctx.errors := by
          have hh := runStepBody_errors rc outcomes st ctx
          rw [hrun] at hh
          exact hh
        have hres' : ∀ sid v, outcomes sid = .ok v → (sid, v) ∈ ctx.step_results →
            (sid, v) ∈ ctx'.step_results := by
          intro sid v hv hm
          have hh := runStepBody_results rc outcomes st ctx hm hv
          rw [hrun] at hh
          exact hh
        cases outcome with
        | skipped =>
            refine ⟨?_, ?_⟩
            · intro p hp
              exact (ih ctx' results).1 p (herr' ▸ hp)
            · intro sid v hv hm
              exact (ih ctx' results).2 sid v hv (hres' sid v hv hm)
        | succeeded v0 =>
            refine ⟨?_, ?_⟩
            · intro p hp
              exact (ih ctx' _).1 p (herr' ▸ hp)
            · intro sid v hv hm
              exact (ih ctx' _).2 sid v hv (hres' sid v hv hm)
        | failed e =>
            refine ⟨?_, ?_⟩
            · intro p hp
              refine (ih _ results).1 p ?_
              simp only [herr']
              exact List.mem_append_left _ hp
            · intro sid v hv hm
              exact (ih _ results).2 sid v hv (hres' sid v hv hm)

lemma execGroup_step (rc : PyValue → Except String (PyValue → Bool))
    (outcomes : String → Except String PyValue) (steps : List WorkflowStep) :
    ∀ (g : List String) (ctx : ExecCtx) (results : List (String × PyValue)),
      ∀ sid ∈ g, ∀ st, findStep steps sid = some st → st.condition = none →
        (∀ e, outcomes sid = .error e →
          (sid, e) ∈ (execGroup rc outcomes steps g ctx results).1.errors) ∧
        (∀ v, outcomes sid = .ok v →
          (sid, v) ∈ (execGroup rc outcomes steps g ctx results).1.step_results) := by
  intro g
  induction g with
  | nil => intro ctx results sid hsid; simp at hsid
  | cons sid0 rest ih =>
      intro ctx results sid hsid st hfind hcond
      rcases List.mem_cons.mp hsid with rfl | htail
      · rw [execGroup_cons_some rc outcomes steps sid rest ctx results st hfind]
        have hid : st.step_id = sid := findStep_id hfind
        have hshould : shouldExecuteStep rc st ctx.state = .ok true := by
          unfold shouldExecuteStep
          rw [hcond]
        constructor
        · intro e he
          have hrun : runStepBody rc outcomes st ctx = (.failed e, ctx) := by
            unfold runStepBody
            rw [hshould, hid, he]
          rw [hrun]
          apply (execGroup_cont rc outcomes steps rest _ results).1
          simp
        · intro v hv
          have hrun : runStepBody rc outcomes st ctx =
              (.succeeded v,
                { ctx with
                  step_results := aset ctx.step_results st.step_id v,
                  state := match st.output_key with
                           | some k => aset ctx.state k v
                           | none => ctx.state }) := by
            unfold runStepBody
            rw [hshould, hid, hv]
          rw [hrun]
          apply (execGroup_cont rc outcomes steps rest _ _).2 sid v hv
          simp only
          rw [hid]
          exact mem_aset_self _ _ _
      · rcases hfind0 : findStep steps sid0 with _ | st0
        · rw [execGroup_cons_none rc outcomes steps sid0 rest ctx results hfind0]
          exact ih ctx results sid htail st hfind hcond
        · rw [execGroup_cons_some rc outcomes steps sid0 rest ctx results st0 hfind0]
          rcases hrun : runStepBody rc outcomes st0 ctx with ⟨outcome, ctx'⟩
          cases outcome with
          | skipped => exact ih ctx' results sid htail st hfind hcond
          | succeeded v0 => exact ih ctx' _ sid htail st hfind hcond
          | failed e0 =>
              refine ⟨?_, ?_⟩
              · intro e he
                exact (ih _ results sid htail st hfind hcond).1 e he
              · intro v hv
                exact (ih _ results sid htail st hfind hcond).2 v hv

lemma processGroupResults_true (failures : List (String × String)) :
    ∀ ctx : ExecCtx,
      (processGroupResults true failures ctx).2 = none ∧
      (processGroupResults true failures ctx).1.step_results = ctx.step_results ∧
      (∀ p ∈ ctx.errors, p ∈ (processGroupResults true failures ctx).1.errors) := by
  induction failures with
  | nil => intro ctx; exact ⟨rfl, rfl, fun p hp => hp⟩
  | cons f rest ih =>
      intro ctx
      obtain ⟨sid, e⟩ := f
      unfold processGroupResults
      simp only [if_true]
      refine ⟨(ih _).1, (ih _).2.1, ?_⟩
      · intro p hp
        refine (ih _).2.2 p ?_
        simp only
        exact List.mem_append_left _ hp

lemma execStepsPar_cons (rc : PyValue → Except String (PyValue → Bool))
    (outcomes : String → Except String PyValue) (steps : List WorkflowStep)
    (co : Bool) (g : List String) (gs : List (List String)) (ctx : ExecCtx)
    (results : List (String × PyValue)) :
    execStepsPar rc outcomes steps co (g :: gs) ctx results =
      (match processGroupResults co (execGroup rc outcomes steps g ctx results).2.2
          (execGroup rc outcomes steps g ctx results).1 with
       | (ctx'', some e) =>
           (ctx'', (execGroup rc outcomes steps g ctx results).2.1, some e)
       | (ctx'', none) =>
           execStepsPar rc outcomes steps co gs ctx''
             (execGroup rc outcomes steps g ctx results).2.1) := by
  conv_lhs => rw [execStepsPar]

lemma execStepsPar_cont (rc : PyValue → Except String (PyValue → Bool))
    (outcomes : String → Except String PyValue) (steps : List WorkflowStep) :
    ∀ (gs : List (List String)) (ctx : ExecCtx) (results : List (String × PyValue)),
      (execStepsPar rc outcomes steps true gs ctx results).2.2 = none ∧
      (∀ p ∈ ctx.errors,
        p ∈ (execStepsPar rc outcomes steps true gs ctx results).1.errors) ∧
      (∀ sid v, outcomes sid = .ok v → (sid, v) ∈ ctx.step_results →
        (sid, v) ∈ (execStepsPar rc outcomes steps true gs ctx results).1.step_results) := by
  intro gs
  induction gs with
  | nil => intro ctx results; exact ⟨rfl, fun p hp => hp, fun sid v _ h => h⟩
  | cons g rest ih =>
      intro ctx results
      rw [execStepsPar_cons]
      rcases hpr : processGroupResults true (execGroup rc outcomes steps g ctx results).2.2
          (execGroup rc outcomes steps g ctx results).1 with ⟨ctx'', exc⟩
      have hprl := processGroupResults_true
        (execGroup rc outcomes steps g ctx results).2.2
        (execGroup rc outcomes steps g ctx results).1
      rw [hpr] at hprl
      obtain ⟨hexc, hres, herrs⟩ := hprl
      simp only at hexc
      subst hexc
      refine ⟨(ih ctx'' _).1, ?_, ?_⟩
      · intro p hp
        refine (ih ctx'' _).2.1 p ?_
        refine herrs p ?_
        exact (execGroup_cont rc outcomes steps g ctx results).1 p hp
      · intro sid v hv hm
        refine (ih ctx'' _).2.2 sid v hv ?_
        rw [hres]
        exact (execGroup_cont rc outcomes steps g ctx results).2 sid v hv hm

lemma execStepsPar_step (rc : PyValue → Except String (PyValue → Bool))
    (outcomes : String → Except String PyValue) (steps : List WorkflowStep) :
    ∀ (gs : List (List String)) (ctx : ExecCtx) (results : List (String × PyValue)),
      ∀ g ∈ gs, ∀ sid ∈ g, ∀ st, findStep steps sid = some st → st.condition = none →
        (∀ e, outcomes sid = .error e →
          (sid, e) ∈ (execStepsPar rc outcomes steps true gs ctx results).1.errors) ∧
        (∀ v, outcomes sid = .ok v →
          (sid, v) ∈ (execStepsPar rc outcomes steps true gs ctx results).1.step_results) := by
  intro gs
  induction gs with
  | nil => intro ctx results g hg; simp at hg
  | cons g0 rest ih =>
      intro ctx results g hg sid hsid st hfind hcond
      rw [execStepsPar_cons]
      rcases hpr : processGroupResults true (execGroup rc outcomes steps g0 ctx results).2.2
          (execGroup rc outcomes steps g0 ctx results).1 with ⟨ctx'', exc⟩
      have hprl := processGroupResults_true
        (execGroup rc outcomes steps g0 ctx results).2.2
        (execGroup rc outcomes steps g0 ctx results).1
      rw [hpr] at hprl
      obtain ⟨hexc, hres, herrs⟩ := hprl
      simp only at hexc
      subst hexc
      rcases List.mem_cons.mp hg with rfl | hgtail
      · constructor
        · intro e he
          refine (execStepsPar_cont rc outcomes steps rest ctx'' _).2.1 _ ?_
          refine herrs _ ?_
          exact ((execGroup_step rc outcomes steps g ctx results sid hsid st
            hfind hcond).1 e he)
        · intro v hv
          refine (execStepsPar_cont rc outcomes steps rest ctx'' _).2.2 sid v hv ?_
          rw [hres]
          exact ((execGroup_step rc outcomes steps g ctx results sid hsid st
            hfind hcond).2 v hv)
      · exact ih ctx'' _ g hgtail sid hsid st hfind hcond

/-- C3 amended: when `continue_on_error` is true, `execute` returns
overall status `completed` (never `partial`), whatever steps failed; in
either execution mode, every dispatched unconditional step that fails
has its id and error recorded in the execution context's errors, and
every one that succeeds has its result stored in the context's step
results (from which the returned steps map is built). -/
theorem C3_amended_completed_with_errors
    (rc : PyValue → Except String (PyValue → Bool))
    (outcomes : String → Except String PyValue)
    (steps : List WorkflowStep) (opts : ExecOptions) (order : List String)
    (hc : opts.continue_on_error = true)
    (hord : calculate_execution_order steps = .ok order) :
    (execute rc outcomes steps opts).1.status = "completed" ∧
    (execute rc outcomes steps opts).1.error = none ∧
    (opts.enable_parallel = false →
      ∀ sid ∈ order, ∀ st, findStep steps sid = some st → st.condition = none →
        (∀ e, outcomes sid = .error e →
          (sid, e) ∈ (execute rc outcomes steps opts).2.errors) ∧
        (∀ v, outcomes sid = .ok v →
          (sid, v) ∈ (execute rc outcomes steps opts).2.step_results)) ∧
    (opts.enable_parallel = true →
      ∀ g ∈ (parallelGroupsFold steps order).map (fun gg => gg.map (·.step_id)),
        ∀ sid ∈ g, ∀ st, findStep steps sid = some st → st.condition = none →
          (∀ e, outcomes sid = .error e →
            (sid, e) ∈ (execute rc outcomes steps opts).2.errors) ∧
          (∀ v, outcomes sid = .ok v →
            (sid, v) ∈ (execute rc outcomes steps opts).2.step_results)) := by
  cases hpar : opts.enable_parallel with
  | false =>
      rcases hdrv : execStepsSeq rc outcomes steps true order emptyCtx []
        with ⟨ctx, results, exc⟩
      have hexc : exc = none := by
        have hh := (execStepsSeq_cont rc outcomes steps order emptyCtx []).1
        rw [hdrv] at hh
        exact hh
      subst hexc
      have hexec : execute rc outcomes steps opts =
          ({ status := "completed",
             result_steps := order.map
               (fun sid => (sid, (alookup ctx.step_results sid).getD .vnone)),
             error := none }, ctx) := by
        unfold execute
        rw [hord, hc, hpar]
        simp only [Bool.false_eq_true, if_false, hdrv]
      rw [hexec]
      refine ⟨rfl, rfl, ?_, ?_⟩
      · intro _ sid hsid st hfind hcond
        constructor
        · intro e he
          have hh := (execStepsSeq_step rc outcomes steps order emptyCtx [] sid
            hsid st hfind hcond).1 e he
          rw [hdrv] at hh
          exact hh
        · intro v hv
          have hh := (execStepsSeq_step rc outcomes steps order emptyCtx [] sid
            hsid st hfind hcond).2 v hv
          rw [hdrv] at hh
          exact hh
      · intro hpar2
        simp at hpar2
  | true =>
      rcases hdrv : execStepsPar rc outcomes steps true
          ((parallelGroupsFold steps order).map (fun g => g.map (·.step_id)))
          emptyCtx [] with ⟨ctx, results, exc⟩
      have hexc : exc = none := by
        have hh := (execStepsPar_cont rc outcomes steps
          ((parallelGroupsFold steps order).map (fun g => g.map (·.step_id)))
          emptyCtx []).1
        rw [hdrv] at hh
        exact hh
      subst hexc
      have hexec : execute rc outcomes steps opts =
          ({ status := "completed",
             result_steps := order.map
               (fun sid => (sid, (alookup ctx.step_results sid).getD .vnone)),
             error := none }, ctx) := by
        unfold execute
        rw [hord, hc, hpar]
        simp only [if_true, hdrv]
      rw [hexec]
      refine ⟨rfl, rfl, ?_, ?_⟩
      · intro hpar2
        simp at hpar2
      · intro _ g hg sid hsid st hfind hcond
        constructor
        · intro e he
          have hh := (execStepsPar_step rc outcomes steps
            ((parallelGroupsFold steps order).map (fun gg => gg.map (·.step_id)))
            emptyCtx [] g hg sid hsid st hfind hcond).1 e he
          rw [hdrv] at hh
          exact hh
        · intro v hv
          have hh := (execStepsPar_step rc outcomes steps
            ((parallelGroupsFold steps order).map (fun gg => gg.map (·.step_id)))
            emptyCtx [] g hg sid hsid st hfind hcond).2 v hv
          rw [hdrv] at hh
          exact hh

/-- C3 witness: the amended claim instantiated on the research workflow
run sequentially with `continue_on_error = true` and a failing
`analyze` agent: the status is `completed`, the failure is in the
context errors, and the successful `research` result is stored. -/
theorem C3_amended_completed_with_errors_witness :
    (execute noRegexCompile failAnalyzeOutcomes researchSteps
        { enable_parallel := false, continue_on_error := true }).1.status
      = "completed" ∧
    ("analyze", "boom") ∈ (execute noRegexCompile failAnalyzeOutcomes researchSteps
        { enable_parallel := false, continue_on_error := true }).2.errors ∧
    ("research", PyValue.vdict [("x", .vint 1)]) ∈
      (execute noRegexCompile failAnalyzeOutcomes researchSteps
        { enable_parallel := false, continue_on_error := true }).2.step_results := by
  have hmain := C3_amended_completed_with_errors noRegexCompile failAnalyzeOutcomes
    researchSteps { enable_parallel := false, continue_on_error := true }
    ["research", "analyze", "synthesize"] rfl rfl
  refine ⟨hmain.1, ?_, ?_⟩
  · exact (hmain.2.2.1 rfl "analyze" (by simp)
      { step_id := "analyze", agent_type := "analysis_agent",
        depends_on := ["research"], output_key := some "analysis_results",
        condition := none } rfl rfl).1 "boom" rfl
  · exact (hmain.2.2.1 rfl "research" (by simp)
      { step_id := "research", agent_type := "research_agent",
        depends_on := [], output_key := some "research_data",
        condition := none } rfl rfl).2 (PyValue.vdict [("x", .vint 1)]) rfl

/-! ### C8: Kahn traversal correctness -/

lemma nodup_ids_unique : ∀ {steps : List WorkflowStep},
    (stepIds steps).Nodup → ∀ {s t : WorkflowStep}, s ∈ steps → t ∈ steps →
      t.step_id = s.step_id → t = s := by
  intro steps
  induction steps with
  | nil => intro _ s t hs; simp at hs
  | cons a rest ih =>
      intro hnd s t hs ht heq
      have hnd' : a.step_id ∉ rest.map (·.step_id) ∧ (rest.map (·.step_id)).Nodup := by
        simpa [stepIds] using hnd
      rcases List.mem_cons.mp hs with rfl | hs' <;>
        rcases List.mem_cons.mp ht with rfl | ht'
      · rfl
      · exact absurd (List.mem_map.mpr ⟨t, ht', heq⟩) hnd'.1
      · exact absurd (List.mem_map.mpr ⟨s, hs', heq.symm⟩) hnd'.1
      · exact ih hnd'.2 hs' ht' heq

lemma findStep_self {steps : List WorkflowStep} (hnodup : (stepIds steps).Nodup)
    {s : WorkflowStep} (hs : s ∈ steps) : findStep steps s.step_id = some s := by
  rcases hf : findStep steps s.step_id with _ | t
  · exfalso
    have := List.find?_eq_none.mp hf s hs
    simp at this
  · have hmem : t ∈ steps := List.mem_of_find?_eq_some hf
    have hid : t.step_id = s.step_id := by
      have := List.find?_some hf
      simpa using this
    rw [nodup_ids_unique hnodup hs hmem hid]

lemma processPop_deg (sid : String) :
    ∀ (l : List WorkflowStep) (deg : String → Int) (queue : List String) (x : String),
      ((l.map (·.step_id)).Nodup) →
      (processPop sid l deg queue).1 x =
        (if ∃ t ∈ l, t.step_id = x ∧ sid ∈ t.depends_on
         then deg x - 1 else deg x) := by
  intro l
  induction l with
  | nil => intro deg queue x _; simp [processPop]
  | cons t rest ih =>
      intro deg queue x hnd
      have hnd' : t.step_id ∉ rest.map (·.step_id) ∧ (rest.map (·.step_id)).Nodup := by
        simpa using hnd
      rcases hc : t.depends_on.contains sid with _ | _
      · have hcm : sid ∉ t.depends_on := by simpa using hc
        rw [show processPop sid (t :: rest) deg queue =
            processPop sid rest deg queue from by
          conv_lhs => rw [processPop]
          rw [hc]
          simp]
        rw [ih deg queue x hnd'.2]
        by_cases hex : ∃ t' ∈ rest, t'.step_id = x ∧ sid ∈ t'.depends_on
        · have hex2 : ∃ t' ∈ t :: rest, t'.step_id = x ∧ sid ∈ t'.depends_on := by
            obtain ⟨t', ht', hrest⟩ := hex
            exact ⟨t', List.mem_cons_of_mem _ ht', hrest⟩
          rw [if_pos hex, if_pos hex2]
        · have hex2 : ¬ ∃ t' ∈ t :: rest, t'.step_id = x ∧ sid ∈ t'.depends_on := by
            intro ⟨t', ht', hidx, hsid⟩
            rcases List.mem_cons.mp ht' with rfl | ht''
            · exact hcm hsid
            · exact hex ⟨t', ht'', hidx, hsid⟩
          rw [if_neg hex, if_neg hex2]
      · have hcm : sid ∈ t.depends_on := by simpa using hc
        rw [show processPop sid (t :: rest) deg queue =
            processPop sid rest (Function.update deg t.step_id (deg t.step_id - 1))
              (if deg t.step_id - 1 = 0 then queue ++ [t.step_id] else queue) from by
          conv_lhs => rw [processPop]
          rw [hc]
          simp]
        rw [ih _ _ x hnd'.2]
        by_cases hx : t.step_id = x
        · subst hx
          have hex : ¬ ∃ t' ∈ rest, t'.step_id = t.step_id ∧ sid ∈ t'.depends_on := by
            intro ⟨t', ht', hidx, _⟩
            exact hnd'.1 (List.mem_map.mpr ⟨t', ht', hidx⟩)
          rw [if_neg hex, Function.update_same]
          have hex2 : ∃ t' ∈ t :: rest, t'.step_id = t.step_id ∧ sid ∈ t'.depends_on :=
            ⟨t, List.mem_cons_self t rest, rfl, hcm⟩
          rw [if_pos hex2]
        · have hupd : Function.update deg t.step_id (deg t.step_id - 1) x = deg x :=
            Function.update_noteq (fun hh => hx hh.symm) _ _
          rw [hupd]
          by_cases hex : ∃ t' ∈ rest, t'.step_id = x ∧ sid ∈ t'.depends_on
          · have hex2 : ∃ t' ∈ t :: rest, t'.step_id = x ∧ sid ∈ t'.depends_on := by
              obtain ⟨t', ht', hrest⟩ := hex
              exact ⟨t', List.mem_cons_of_mem _ ht', hrest⟩
            rw [if_pos hex, if_pos hex2]
          · have hex2 : ¬ ∃ t' ∈ t :: rest, t'.step_id = x ∧ sid ∈ t'.depends_on := by
              intro ⟨t', ht', hidx, hsid⟩
              rcases List.mem_cons.mp ht' with rfl | ht''
              · exact hx hidx
              · exact hex ⟨t', ht'', hidx, hsid⟩
            rw [if_neg hex, if_neg hex2]

lemma processPop_queue (sid : String) :
    ∀ (l : List WorkflowStep) (deg : String → Int) (queue : List String),
      ((l.map (·.step_id)).Nodup) →
      (processPop sid l deg queue).2 =
        queue ++ (l.filter
          (fun t => t.depends_on.contains sid && deg t.step_id == 1)).map (·.step_id) := by
  intro l
  induction l with
  | nil => intro deg queue _; simp [processPop]
  | cons t rest ih =>
      intro deg queue hnd
      have hnd' : t.step_id ∉ rest.map (·.step_id) ∧ (rest.map (·.step_id)).Nodup := by
        simpa using hnd
      rcases hc : t.depends_on.contains sid with _ | _
      · rw [show processPop sid (t :: rest) deg queue =
            processPop sid rest deg queue from by
          conv_lhs => rw [processPop]
          rw [hc]
          simp]
        rw [ih deg queue hnd'.2]
        rw [List.filter_cons_of_neg (by rw [hc]; simp)]
      · rw [show processPop sid (t :: rest) deg queue =
            processPop sid rest (Function.update deg t.step_id (deg t.step_id - 1))
              (if deg t.step_id - 1 = 0 then queue ++ [t.step_id] else queue) from by
          conv_lhs => rw [processPop]
          rw [hc]
          simp]
        rw [ih _ _ hnd'.2]
        have hfilt : rest.filter
            (fun t' => t'.depends_on.contains sid &&
              Function.update deg t.step_id (deg t.step_id - 1) t'.step_id == 1) =
            rest.filter
              (fun t' => t'.depends_on.contains sid && deg t'.step_id == 1) := by
          apply List.filter_congr
          intro t' ht'
          have hne : t'.step_id ≠ t.step_id := by
            intro hh
            exact hnd'.1 (hh ▸ List.mem_map.mpr ⟨t', ht', rfl⟩)
          rw [Function.update_noteq hne]
        rw [hfilt]
        by_cases hz : deg t.step_id - 1 = 0
        · have hz' : (deg t.step_id == 1) = true := by
            simp only [beq_iff_eq]
            omega
          rw [if_pos hz, List.filter_cons_of_pos (by rw [hc, hz']; simp)]
          simp
        · have hz' : (deg t.step_id == 1) = false := by
            simp only [beq_eq_false_iff_ne, ne_eq]
            intro hh
            omega
          rw [if_neg hz, List.filter_cons_of_neg (by rw [hc, hz']; simp)]

lemma kahnInv_step {steps : List WorkflowStep} (hnodup : (stepIds steps).Nodup)
    {sid : String} {rest : List String} {deg : String → Int} {order : List String}
    (hInv : KahnInv steps (sid :: rest) deg order) :
    KahnInv steps (processPop sid steps deg rest).2 (processPop sid steps deg rest).1
      (order ++ [sid]) := by
  obtain ⟨h1, h2, h3, h4, h5, h6, h7⟩ := hInv
  have hnd : (steps.map (·.step_id)).Nodup := hnodup
  have hdeg : ∀ x, (processPop sid steps deg rest).1 x =
      if ∃ t ∈ steps, t.step_id = x ∧ sid ∈ t.depends_on then deg x - 1 else deg x :=
    fun x => processPop_deg sid steps deg rest x hnd
  have hqueue : (processPop sid steps deg rest).2 =
      rest ++ (steps.filter
        (fun t => t.depends_on.contains sid && deg t.step_id == 1)).map (·.step_id) :=
    processPop_queue sid steps deg rest hnd
  have hdeg_s : ∀ s ∈ steps, (processPop sid steps deg rest).1 s.step_id =
      if sid ∈ s.depends_on then deg s.step_id - 1 else deg s.step_id := by
    intro s hs
    rw [hdeg s.step_id]
    by_cases hmem : sid ∈ s.depends_on
    · rw [if_pos ⟨s, hs, rfl, hmem⟩, if_pos hmem]
    · rw [if_neg ?_, if_neg hmem]
      intro ⟨t, ht, hid, hsid⟩
      exact hmem ((nodup_ids_unique hnodup hs ht hid) ▸ hsid)
  have hsplit2 : order ++ sid :: rest = (order ++ [sid]) ++ rest := by simp
  have h2' : ((order ++ [sid]) ++ rest).Nodup := hsplit2 ▸ h2
  have hsidkeys : sid ∈ stepIds steps := h1 sid (by simp)
  have hnewmem : ∀ x, x ∈ (steps.filter
      (fun t => t.depends_on.contains sid && deg t.step_id == 1)).map (·.step_id) →
      ∃ t ∈ steps, t.step_id = x ∧ sid ∈ t.depends_on ∧ deg t.step_id = 1 := by
    intro x hx
    obtain ⟨t, htf, hid⟩ := List.mem_map.mp hx
    obtain ⟨ht, hcond⟩ := List.mem_filter.mp htf
    simp only [Bool.and_eq_true, beq_iff_eq] at hcond
    exact ⟨t, ht, hid, by simpa using hcond.1, hcond.2⟩
  refine ⟨?_, ?_, ?_, ?_, ?_, ?_, ?_⟩
  · -- (i) membership in stepIds
    rw [hqueue]
    intro x hx
    simp only [List.mem_append, List.mem_singleton] at hx
    rcases hx with (hx | rfl) | hx | hx
    · exact h1 x (by simp [hx])
    · exact hsidkeys
    · exact h1 x (by simp [hx])
    · obtain ⟨t, ht, hid, _, _⟩ := hnewmem x hx
      exact hid ▸ List.mem_map.mpr ⟨t, ht, rfl⟩
  · -- (ii) nodup
    rw [hqueue, show (order ++ [sid]) ++ (rest ++ (steps.filter
        (fun t => t.depends_on.contains sid && deg t.step_id == 1)).map (·.step_id)) =
      ((order ++ [sid]) ++ rest) ++ (steps.filter
        (fun t => t.depends_on.contains sid && deg t.step_id == 1)).map (·.step_id)
      from by simp]
    rw [List.nodup_append]
    refine ⟨h2', ?_, ?_⟩
    · exact List.Nodup.sublist
        (List.Sublist.map (·.step_id) (List.filter_sublist steps)) hnd
    · intro x hx hxnew
      obtain ⟨t, ht, hid, _, hdeg1⟩ := hnewmem x hxnew
      have hx' : t.step_id ∈ order ++ sid :: rest := by
        rw [hsplit2]
        exact hid ▸ hx
      have := h7 t ht hx'
      omega
  · -- (iii) degree formula
    intro s hs
    rw [hdeg_s s hs]
    rw [List.filter_append]
    by_cases hmem : sid ∈ s.depends_on
    · have hcontains : ([sid].filter (fun u => s.depends_on.contains u)) = [sid] := by
        simp [hmem]
      rw [if_pos hmem, hcontains, h3 s hs]
      simp only [List.length_append, List.length_singleton]
      push_cast
      ring
    · have hcontains : ([sid].filter (fun u => s.depends_on.contains u)) = [] := by
        simp [hmem]
      rw [if_neg hmem, hcontains, h3 s hs]
      simp
  · -- (iv) zero degree implies queued or emitted
    intro s hs hz
    rw [hdeg_s s hs] at hz
    rw [hqueue]
    by_cases hmem : sid ∈ s.depends_on
    · rw [if_pos hmem] at hz
      have hfz : s ∈ steps.filter
          (fun t => t.depends_on.contains sid && deg t.step_id == 1) := by
        rw [List.mem_filter]
        refine ⟨hs, ?_⟩
        simp only [Bool.and_eq_true, beq_iff_eq]
        exact ⟨by simpa using hmem, by omega⟩
      simp only [List.mem_append]
      right; right
      exact List.mem_map.mpr ⟨s, hfz, rfl⟩
    · rw [if_neg hmem] at hz
      have := h4 s hs hz
      simp only [List.mem_append, List.mem_cons] at this
      simp only [List.mem_append, List.mem_singleton]
      rcases this with hh | rfl | hh
      · exact Or.inl (Or.inl hh)
      · exact Or.inl (Or.inr rfl)
      · exact Or.inr (Or.inl hh)
  · -- (v) emitted steps' dependencies emitted earlier
    intro k hk u hu
    have hlen : (order ++ [sid]).length = order.length + 1 := by simp
    by_cases hklt : k < order.length
    · have hget : (order ++ [sid]).get ⟨k, hk⟩ = order.get ⟨k, hklt⟩ := by
        rw [List.get_append]
      rw [hget] at hu
      have htake : (order ++ [sid]).take k = order.take k := by
        rw [List.take_append_eq_append_take]
        have : k - order.length = 0 := by omega
        rw [this]
        simp
      rw [htake]
      exact h5 k hklt u hu
    · have hkeq : k = order.length := by
        rw [hlen] at hk
        omega
      subst hkeq
      have hget : (order ++ [sid]).get ⟨order.length, hk⟩ = sid := by
        rw [List.get_eq_getElem, List.getElem_append_right (le_refl _)]
        simp
      rw [hget] at hu
      have htake : (order ++ [sid]).take order.length = order := by
        rw [List.take_append_eq_append_take]
        simp
      rw [htake]
      exact h6 sid (by simp) u hu
  · -- (vi) queued steps' dependencies all emitted
    rw [hqueue]
    intro v hv u hedge
    simp only [List.mem_append] at hv
    rcases hv with hv | hv
    · have := h6 v (List.mem_cons_of_mem _ hv) u hedge
      simp [this]
    · obtain ⟨t, ht, hid, hsid_dep, hdeg1⟩ := hnewmem v hv
      obtain ⟨t', ht', hid', hu_dep, hu_keys⟩ := hedge
      have hteq : t' = t := nodup_ids_unique hnodup ht ht' (by rw [hid', hid])
      rw [hteq] at hu_dep
      -- counting argument: all existing dependencies of t are in order ++ [sid]
      have hA := h3 t ht
      rw [hdeg1] at hA
      have hAlen : ((order.filter (fun w => t.depends_on.contains w)).length : Int) + 1 =
          initialDegree steps t := by omega
      set A' := (order ++ [sid]).filter (fun w => t.depends_on.contains w) with hA'
      have hA'eq : A' = order.filter (fun w => t.depends_on.contains w) ++ [sid] := by
        rw [hA', List.filter_append]
        congr 1
        simp [hsid_dep]
      have hA'len : (A'.length : Int) = initialDegree steps t := by
        rw [hA'eq]
        simp only [List.length_append, List.length_singleton]
        push_cast
        omega
      have hA'nodup : A'.Nodup := by
        rw [hA']
        exact List.Nodup.filter _ (List.nodup_append.mp h2').1
      have hA'subE : ∀ w ∈ A', w ∈ existingDeps steps t := by
        intro w hw
        rw [hA'] at hw
        obtain ⟨hworder, hwdep⟩ := List.mem_filter.mp hw
        rw [existingDeps, List.mem_filter]
        refine ⟨by simpa using hwdep, ?_⟩
        simp only [List.mem_append, List.mem_singleton] at hworder
        rcases hworder with hw' | rfl
        · simpa using h1 w (by simp [hw'])
        · simpa using hsidkeys
      have huE : u ∈ existingDeps steps t := by
        rw [existingDeps, List.mem_filter]
        exact ⟨hu_dep, by simpa using hu_keys⟩
      by_cases huA' : u ∈ A'
      · rw [hA'] at huA'
        exact (List.mem_filter.mp huA').1
      · exfalso
        have hsub : A'.toFinset ⊆ (existingDeps steps t).toFinset.erase u := by
          intro w hw
          rw [List.mem_toFinset] at hw
          rw [Finset.mem_erase, List.mem_toFinset]
          exact ⟨fun hh => huA' (hh ▸ hw), hA'subE w hw⟩
        have hcard1 : A'.toFinset.card = A'.length :=
          List.toFinset_card_of_nodup hA'nodup
        have hcard2 : ((existingDeps steps t).toFinset.erase u).card =
            (existingDeps steps t).toFinset.card - 1 :=
          Finset.card_erase_of_mem (List.mem_toFinset.mpr huE)
        have hcard3 : (existingDeps steps t).toFinset.card ≤
            (existingDeps steps t).length := List.toFinset_card_le _
        have hpos : 1 ≤ (existingDeps steps t).toFinset.card :=
          Finset.card_pos.mpr ⟨u, List.mem_toFinset.mpr huE⟩
        have hle := Finset.card_le_card hsub
        rw [hcard1, hcard2] at hle
        have hinit : initialDegree steps t = ((existingDeps steps t).length : Int) := rfl
        omega
  · -- (vii) queued or emitted implies non-positive degree
    intro s hs hmem
    rw [hqueue] at hmem
    simp only [List.mem_append, List.mem_singleton] at hmem
    rw [hdeg_s s hs]
    rcases hmem with (hh | rfl) | hh | hh
    · have := h7 s hs (by simp [hh])
      split <;> omega
    · have := h7 s hs (by simp)
      split <;> omega
    · have := h7 s hs (by simp [hh])
      split <;> omega
    · obtain ⟨t, ht, hid, hsid_dep, hdeg1⟩ := hnewmem _ hh
      have hteq : t = s := nodup_ids_unique hnodup hs ht hid
      subst hteq
      rw [if_pos hsid_dep]
      omega

lemma kahnLoop_zero (steps : List WorkflowStep) (queue : List String)
    (deg : String → Int) (order : List String) :
    kahnLoop steps 0 queue deg order = order := rfl

lemma kahnLoop_nil (steps : List WorkflowStep) (fuel : Nat)
    (deg : String → Int) (order : List String) :
    kahnLoop steps (fuel + 1) [] deg order = order := rfl

lemma kahnLoop_cons (steps : List WorkflowStep) (fuel : Nat) (sid : String)
    (rest : List String) (deg : String → Int) (order : List String) :
    kahnLoop steps (fuel + 1) (sid :: rest) deg order =
      kahnLoop steps fuel (processPop sid steps deg rest).2
        (processPop sid steps deg rest).1 (order ++ [sid]) := rfl

lemma kahnLoop_spec {steps : List WorkflowStep} (hnodup : (stepIds steps).Nodup) :
    ∀ fuel queue deg order, KahnInv steps queue deg order →
      order.length + fuel = steps.length →
      ∃ qF dF, KahnInv steps qF dF (kahnLoop steps fuel queue deg order) ∧
        (qF = [] ∨ (kahnLoop steps fuel queue deg order).length = steps.length) := by
  intro fuel
  induction fuel with
  | zero =>
      intro queue deg order hInv hlen
      rw [kahnLoop_zero]
      exact ⟨queue, deg, hInv, Or.inr (by omega)⟩
  | succ fuel ih =>
      intro queue deg order hInv hlen
      cases queue with
      | nil =>
          rw [kahnLoop_nil]
          exact ⟨[], deg, hInv, Or.inl rfl⟩
      | cons sid rest =>
          rw [kahnLoop_cons]
          have hstep := kahnInv_step hnodup hInv
          have hlen' : (order ++ [sid]).length + fuel = steps.length := by
            simp only [List.length_append, List.length_singleton]
            omega
          exact ih _ _ _ hstep hlen'

lemma kahnInv_init {steps : List WorkflowStep} (hnodup : (stepIds steps).Nodup) :
    KahnInv steps (kahnQueue0 steps) (kahnDeg0 steps) [] := by
  have hq0 : ∀ x, x ∈ kahnQueue0 steps →
      ∃ t ∈ steps, t.step_id = x ∧ initialDegree steps t = 0 := by
    intro x hx
    obtain ⟨t, htf, hid⟩ := List.mem_map.mp hx
    obtain ⟨ht, hcond⟩ := List.mem_filter.mp htf
    simp only [beq_iff_eq] at hcond
    exact ⟨t, ht, hid, hcond⟩
  have hdeg0 : ∀ s ∈ steps, kahnDeg0 steps s.step_id = initialDegree steps s := by
    intro s hs
    rw [kahnDeg0]
    rw [findStep_self hnodup hs]
  refine ⟨?_, ?_, ?_, ?_, ?_, ?_, ?_⟩
  · intro x hx
    simp only [List.nil_append] at hx
    obtain ⟨t, ht, hid, _⟩ := hq0 x hx
    exact hid ▸ List.mem_map.mpr ⟨t, ht, rfl⟩
  · simp only [List.nil_append]
    rw [kahnQueue0]
    exact List.Nodup.sublist
      (List.Sublist.map (·.step_id) (List.filter_sublist steps)) hnodup
  · intro s hs
    rw [hdeg0 s hs]
    simp
  · intro s hs hz
    rw [hdeg0 s hs] at hz
    simp only [List.nil_append]
    refine List.mem_map.mpr ⟨s, List.mem_filter.mpr ⟨hs, ?_⟩, rfl⟩
    simp [hz]
  · intro k hk
    simp at hk
  · intro v hv u hedge
    exfalso
    obtain ⟨t, ht, hid, hdeg⟩ := hq0 v hv
    obtain ⟨t', ht', hid', hu_dep, hu_keys⟩ := hedge
    have hteq : t' = t := nodup_ids_unique hnodup ht ht' (by rw [hid', hid])
    rw [hteq] at hu_dep
    have huE : u ∈ existingDeps steps t := by
      rw [existingDeps, List.mem_filter]
      exact ⟨hu_dep, by simpa using hu_keys⟩
    have : (existingDeps steps t).length = 0 := by
      have := hdeg
      rw [initialDegree] at this
      omega
    rw [List.length_eq_zero.mp this] at huE
    exact absurd huE (List.not_mem_nil u)
  · intro s hs hmem
    simp only [List.nil_append] at hmem
    obtain ⟨t, ht, hid, hdeg⟩ := hq0 s.step_id hmem
    have hteq : t = s := nodup_ids_unique hnodup hs ht hid
    rw [hdeg0 s hs, ← hteq, hdeg]

lemma calculate_execution_order_eq (steps : List WorkflowStep) :
    calculate_execution_order steps =
      if (kahnLoop steps steps.length (kahnQueue0 steps) (kahnDeg0 steps) []).length
          = steps.length
      then .ok (kahnLoop steps steps.length (kahnQueue0 steps) (kahnDeg0 steps) [])
      else .error "Circular dependency detected in workflow" := rfl

lemma indexOf_lt_of_mem_take {u : String} :
    ∀ (F : List String) (k : Nat), u ∈ F.take k → F.indexOf u < k := by
  intro F
  induction F with
  | nil => intro k h; simp at h
  | cons a F ih =>
      intro k h
      cases k with
      | zero => simp at h
      | succ k =>
          simp only [List.take_succ_cons, List.mem_cons] at h
          by_cases hau : u = a
          · subst hau
            simp [List.indexOf_cons_self]
          · rcases h with rfl | h
            · exact absurd rfl hau
            · have := ih k h
              rw [List.indexOf_cons_ne _ (fun hh => hau hh.symm)]
              omega

lemma chain_pred {α : Type} {R : α → α → Prop} :
    ∀ (c : List α) (a : α), List.Chain R a c → ∀ x ∈ c, ∃ u ∈ a :: c, R u x := by
  intro c
  induction c with
  | nil =>
      intro a _ x hx
      simp at hx
  | cons b c' ih =>
      intro a hch x hx
      rcases List.chain_cons.mp hch with ⟨hab, hbc⟩
      rcases List.mem_cons.mp hx with rfl | hx'
      · exact ⟨a, by simp, hab⟩
      · obtain ⟨u, hu, hR⟩ := ih b hbc x hx'
        refine ⟨u, ?_, hR⟩
        simp only [List.mem_cons] at hu ⊢
        tauto

lemma cycle_pred {steps : List WorkflowStep} (hcyc : hasDepCycle steps) :
    ∃ c : List String, c ≠ [] ∧ ∀ x ∈ c, ∃ u ∈ c, depEdge steps u x := by
  obtain ⟨c, hlen, hhl, hchain⟩ := hcyc
  cases c with
  | nil => simp at hlen
  | cons a c' =>
      have hc'ne : c' ≠ [] := by
        rintro rfl
        simp at hlen
      have hgl : a = c'.getLast hc'ne := by
        rw [List.getLast?_eq_getLast (a :: c') (by simp)] at hhl
        have h := Option.some.inj hhl
        rw [h, List.getLast_cons hc'ne]
      have hamem : a ∈ c' := hgl ▸ List.getLast_mem hc'ne
      have hch : List.Chain (depEdge steps) a c' := hchain
      refine ⟨a :: c', by simp, ?_⟩
      intro x hx
      have hx' : x ∈ c' := by
        rcases List.mem_cons.mp hx with rfl | h
        · exact hamem
        · exact h
      exact chain_pred c' a hch x hx'

lemma cycle_not_all_emitted {steps : List WorkflowStep} {F : List String}
    (hv : ∀ k, (h : k < F.length) → ∀ u, depEdge steps u (F.get ⟨k, h⟩) →
      u ∈ F.take k)
    (hcyc : hasDepCycle steps) :
    ∃ x, x ∈ stepIds steps ∧ x ∉ F := by
  obtain ⟨c, hcne, hpred⟩ := cycle_pred hcyc
  have hc_ids : ∀ x ∈ c, x ∈ stepIds steps := by
    intro x hx
    obtain ⟨u, hu, t, ht, hid, _, _⟩ := hpred x hx
    exact hid ▸ List.mem_map.mpr ⟨t, ht, rfl⟩
  by_contra hcon
  push_neg at hcon
  have hallF : ∀ x ∈ c, x ∈ F := fun x hx => hcon x (hc_ids x hx)
  have hkey : ∀ k, ∀ x ∈ c, F.indexOf x ≠ k := by
    intro k
    induction k using Nat.strong_induction_on with
    | _ k ih =>
        intro x hx hidx
        obtain ⟨u, huc, hedge⟩ := hpred x hx
        have hxF : x ∈ F := hallF x hx
        have hlt : F.indexOf x < F.length := List.indexOf_lt_length.mpr hxF
        have hget : F.get ⟨F.indexOf x, hlt⟩ = x := List.indexOf_get hlt
        have hedge' : depEdge steps u (F.get ⟨F.indexOf x, hlt⟩) := by
          rw [hget]
          exact hedge
        have hu_take : u ∈ F.take (F.indexOf x) :=
          hv (F.indexOf x) hlt u hedge'
        have hu_lt : F.indexOf u < F.indexOf x := indexOf_lt_of_mem_take F _ hu_take
        exact ih (F.indexOf u) (by omega) u huc rfl
  obtain ⟨x, hx⟩ := List.exists_mem_of_ne_nil c hcne
  exact hkey (F.indexOf x) x hx rfl

lemma length_lt_of_missing {F ids : List String} {x : String}
    (hFsub : ∀ y ∈ F, y ∈ ids) (hFnd : F.Nodup) (hx : x ∈ ids) (hxF : x ∉ F) :
    F.length < ids.length := by
  have hsub : F.toFinset ⊆ ids.toFinset.erase x := by
    intro y hy
    rw [List.mem_toFinset] at hy
    rw [Finset.mem_erase, List.mem_toFinset]
    exact ⟨fun h => hxF (h ▸ hy), hFsub y hy⟩
  have h1 : F.toFinset.card = F.length := List.toFinset_card_of_nodup hFnd
  have h2 := Finset.card_le_card hsub
  have h3 : (ids.toFinset.erase x).card = ids.toFinset.card - 1 :=
    Finset.card_erase_of_mem (List.mem_toFinset.mpr hx)
  have h4 : ids.toFinset.card ≤ ids.length := List.toFinset_card_le _
  have h5 : 1 ≤ ids.toFinset.card :=
    Finset.card_pos.mpr ⟨x, List.mem_toFinset.mpr hx⟩
  omega

lemma calculate_order_cyclic {steps : List WorkflowStep}
    (hnodup : (stepIds steps).Nodup) (hcyc : hasDepCycle steps) :
    calculate_execution_order steps =
      .error "Circular dependency detected in workflow" := by
  obtain ⟨qF, dF, hInv, _⟩ :=
    kahnLoop_spec hnodup steps.length (kahnQueue0 steps) (kahnDeg0 steps) []
      (kahnInv_init hnodup) (by simp)
  set F := kahnLoop steps steps.length (kahnQueue0 steps) (kahnDeg0 steps) []
    with hF
  have hFsub : ∀ y ∈ F, y ∈ stepIds steps := fun y hy => hInv.1 y (by simp [hy])
  have hFnd : F.Nodup := hInv.2.1.of_append_left
  have hv := hInv.2.2.2.2.1
  obtain ⟨x, hx, hxF⟩ := cycle_not_all_emitted hv hcyc
  have hlt := length_lt_of_missing hFsub hFnd hx hxF
  have hids : (stepIds steps).length = steps.length := by simp [stepIds]
  rw [calculate_execution_order_eq, ← hF, if_neg (by omega)]

lemma acyclic_all_emitted {steps : List WorkflowStep} {F : List String}
    {dF : String → Int} {rank : String → Nat}
    (hdeps : ∀ s ∈ steps, s.depends_on.Nodup)
    (hrank : depRank steps rank)
    (hInv : KahnInv steps [] dF F) :
    ∀ x ∈ stepIds steps, x ∈ F := by
  obtain ⟨h1, h2, h3, h4, _, _, _⟩ := hInv
  simp only [List.append_nil] at h1 h2 h4
  have hkey : ∀ r, ∀ x ∈ stepIds steps, x ∉ F → rank x ≠ r := by
    intro r
    induction r using Nat.strong_induction_on with
    | _ r ih =>
        intro x hx hxF hr
        obtain ⟨s, hs, hsid⟩ := List.mem_map.mp hx
        have halldeps : ∀ w ∈ existingDeps steps s, w ∈ F := by
          intro w hw
          rw [existingDeps, List.mem_filter] at hw
          obtain ⟨hwdep, hwids⟩ := hw
          have hwids' : w ∈ stepIds steps := by simpa using hwids
          have hedge : depEdge steps w x := ⟨s, hs, hsid, hwdep, hwids'⟩
          by_contra hwF
          have hlt := hrank w x hedge
          exact ih (rank w) (by omega) w hwids' hwF rfl
        set A := F.filter (fun u => s.depends_on.contains u) with hA
        have hmemeq : ∀ w, w ∈ A ↔ w ∈ existingDeps steps s := by
          intro w
          rw [hA, List.mem_filter, existingDeps, List.mem_filter]
          constructor
          · rintro ⟨hwF, hwdep⟩
            refine ⟨by simpa using hwdep, ?_⟩
            simpa using h1 w hwF
          · rintro ⟨hwdep, hwids⟩
            refine ⟨?_, by simpa using hwdep⟩
            exact halldeps w (by rw [existingDeps, List.mem_filter]; exact ⟨hwdep, hwids⟩)
        have hfnd : A.Nodup := by
          rw [hA]
          exact List.Nodup.filter _ h2
        have hend : (existingDeps steps s).Nodup := by
          rw [existingDeps]
          exact List.Nodup.filter _ (hdeps s hs)
        have hlen : A.length = (existingDeps steps s).length := by
          have hfs : A.toFinset = (existingDeps steps s).toFinset := by
            ext w
            simp only [List.mem_toFinset]
            exact hmemeq w
          calc A.length = A.toFinset.card := (List.toFinset_card_of_nodup hfnd).symm
            _ = (existingDeps steps s).toFinset.card := by rw [hfs]
            _ = (existingDeps steps s).length := List.toFinset_card_of_nodup hend
        have hz : dF s.step_id = 0 := by
          rw [h3 s hs, ← hA, hlen, initialDegree]
          ring
        have hmem := h4 s hs hz
        rw [hsid] at hmem
        exact hxF hmem
  intro x hx
  by_contra hxF
  exact hkey (rank x) x hx hxF rfl

lemma calculate_order_acyclic {steps : List WorkflowStep}
    (hnodup : (stepIds steps).Nodup)
    (hdeps : ∀ s ∈ steps, s.depends_on.Nodup)
    {rank : String → Nat} (hrank : depRank steps rank) :
    ∃ order, calculate_execution_order steps = .ok order ∧
      order.Perm (stepIds steps) := by
  obtain ⟨qF, dF, hInv, hdisj⟩ :=
    kahnLoop_spec hnodup steps.length (kahnQueue0 steps) (kahnDeg0 steps) []
      (kahnInv_init hnodup) (by simp)
  set F := kahnLoop steps steps.length (kahnQueue0 steps) (kahnDeg0 steps) []
    with hF
  have hFsub : ∀ y ∈ F, y ∈ stepIds steps := fun y hy => hInv.1 y (by simp [hy])
  have hFnd : F.Nodup := hInv.2.1.of_append_left
  have hids : (stepIds steps).length = steps.length := by simp [stepIds]
  have hperm_of_all : (∀ x ∈ stepIds steps, x ∈ F) → F.Perm (stepIds steps) := by
    intro hall
    have hsp : F.Subperm (stepIds steps) := hFnd.subperm (fun y hy => hFsub y hy)
    have hsp' : (stepIds steps).Subperm F := hnodup.subperm (fun y hy => hall y hy)
    exact hsp.perm_of_length_le hsp'.length_le
  rcases hdisj with hq | hlen
  · subst hq
    have hall := acyclic_all_emitted hdeps hrank hInv
    have hperm := hperm_of_all hall
    have hlen : F.length = steps.length := by
      have := hperm.length_eq
      omega
    refine ⟨F, ?_, hperm⟩
    rw [calculate_execution_order_eq, ← hF, if_pos hlen]
  · have hall : ∀ x ∈ stepIds steps, x ∈ F := by
      by_contra hcon
      push_neg at hcon
      obtain ⟨x, hx, hxF⟩ := hcon
      have := length_lt_of_missing hFsub hFnd hx hxF
      omega
    refine ⟨F, ?_, hperm_of_all hall⟩
    rw [calculate_execution_order_eq, ← hF, if_pos hlen]

/-- C8 (corrected): for every step set with duplicate-free step ids whose
dependency graph contains a cycle, `calculate_execution_order` fails with
the constant message "Circular dependency detected in workflow" — the
message names nothing — and `execute` on such a step set returns status
"failed" with an empty step-result list, so no cyclic workflow is ever
executed; conversely, for every step set admitting a rank function that
increases along dependency edges (an acyclic dependency graph) and whose
steps list each dependency at most once, ordering succeeds and the
emitted order is a permutation of all step ids. -/
theorem C8_amended_cycle_rejection :
    (∀ steps : List WorkflowStep, (stepIds steps).Nodup → hasDepCycle steps →
      calculate_execution_order steps =
        .error "Circular dependency detected in workflow" ∧
      ∀ rc outcomes options,
        (execute rc outcomes steps options).1.status = "failed" ∧
        (execute rc outcomes steps options).1.result_steps = []) ∧
    (∀ (steps : List WorkflowStep) (rank : String → Nat),
      (stepIds steps).Nodup → (∀ s ∈ steps, s.depends_on.Nodup) →
      depRank steps rank →
      ∃ order, calculate_execution_order steps = .ok order ∧
        order.Perm (stepIds steps)) := by
  constructor
  · intro steps hnodup hcyc
    have herr := calculate_order_cyclic hnodup hcyc
    refine ⟨herr, fun rc outcomes options => ?_⟩
    constructor
    · simp only [execute, herr]
    · simp only [execute, herr]
  · intro steps rank hnodup hdeps hrank
    exact calculate_order_acyclic hnodup hdeps hrank

theorem C8_amended_cycle_rejection_witness :
    (calculate_execution_order cycleStepsAB =
      .error "Circular dependency detected in workflow" ∧
     (execute noRegexCompile failAnalyzeOutcomes cycleStepsAB
        { enable_parallel := true, continue_on_error := false }).1.status =
       "failed") ∧
    ∃ order, calculate_execution_order researchSteps = .ok order ∧
      order.Perm (stepIds researchSteps) := by
  have hcyc : hasDepCycle cycleStepsAB := by
    refine ⟨["a", "b", "a"], by simp, by rfl, ?_⟩
    refine List.chain'_cons.mpr ⟨?_, List.chain'_cons.mpr ⟨?_, ?_⟩⟩
    · show ∃ t ∈ cycleStepsAB,
        t.step_id = "b" ∧ "a" ∈ t.depends_on ∧ "a" ∈ stepIds cycleStepsAB
      decide
    · show ∃ t ∈ cycleStepsAB,
        t.step_id = "a" ∧ "b" ∈ t.depends_on ∧ "b" ∈ stepIds cycleStepsAB
      decide
    · exact List.chain'_singleton "a"
  have hcycpart := C8_amended_cycle_rejection.1 cycleStepsAB (by decide) hcyc
  have hrank : depRank researchSteps
      (fun s => if s = "research" then 0 else if s = "analyze" then 1 else 2) := by
    intro u v hedge
    obtain ⟨t, ht, hid, hudep, _⟩ := hedge
    subst hid
    simp only [researchSteps, List.mem_cons, List.not_mem_nil, or_false] at ht
    rcases ht with rfl | rfl | rfl
    · simp at hudep
    · simp only [List.mem_cons, List.not_mem_nil, or_false] at hudep
      subst hudep
      decide
    · simp only [List.mem_cons, List.not_mem_nil, or_false] at hudep
      subst hudep
      decide
  exact ⟨⟨hcycpart.1,
      (hcycpart.2 noRegexCompile failAnalyzeOutcomes
        { enable_parallel := true, continue_on_error := false }).1⟩,
    C8_amended_cycle_rejection.2 researchSteps _ (by decide) (by decide) hrank⟩

end Orchestrator
